import Mathlib

/-!
# Gecode: restart search, integer views, hash combination, CpltSet test space

A shallow embedding of

* `gecode/search/restart-engine.cpp` (`Restart::Restart`, `Restart::next`),
* `gecode/int/view/int.hpp` (`IntView`),
* `gecode/support/hash.hpp` (`cmb_hash`),
* `test/cpltset.cc` (`CpltSetTestSpace::assigned`, `fixprob`, the pruning cases
  of `prune`),

together with the properties proved about them.

Pointers to spaces are modelled as `Option S` (`none` is `NULL`).  The
operations of `Space` and of the base class `DFS` are not part of the sources
at hand; for the restart engine they are fields of `Search.Ops`, so that each
result holds for every implementation of them.  For `fixprob` the
propagation loop of a space is modelled from the specification.  C++ `int` is
`Int` reduced into the 32-bit range by `wrap32`, `unsigned int` and
`std::size_t` are `Nat` reduced modulo a power of two.
-/

namespace Gecode

/-- Result of `Space::status()`. -/
inductive SpaceStatus where
  | SS_FAILED
  | SS_SOLVED
  | SS_BRANCH
  deriving DecidableEq

namespace Search

/-- The member functions of `Space` and of the base engine `DFS` that the
restart engine calls.  `S` is the state of a space, `D` the state of the
`DFS` base-class part of the engine, `O` the search options.

* `status s` is `s->status()`: the status and the space after propagation;
* `clone s` is `s->clone()`;
* `constrain r b` is the space `r` after `r->constrain(*b)`;
* `dfsInit s sz o` is the base-class constructor `DFS(s,sz,o)`;
* `reset d r` is the engine after `reset(r)`;
* `dfsNext d` is `DFS::next()`: the space returned (or `NULL`) and the engine
  afterwards. -/
structure Ops (S D O : Type) where
  status : S → SpaceStatus × S
  clone : S → S
  constrain : S → S → S
  dfsInit : S → Nat → O → D
  reset : D → S → D
  dfsNext : D → Option S × D

/-- The calls an engine operation makes, in program order. -/
inductive Call (S : Type) where
  /-- The call `DFS(s,sz,o)`. -/
  | dfsInit (s : S)
  /-- The call `s->status()`. -/
  | status (s : S)
  /-- The call `root->constrain(*best)`. -/
  | constrain (root best : S)
  /-- The call `reset(root)`. -/
  | reset (root : S)
  /-- The call `delete best`. -/
  | deleteBest (best : Option S)
  /-- The call `DFS::next()`. -/
  | dfsNext
  /-- The call `s->clone()`. -/
  | clone (s : S)
  deriving DecidableEq

/-- The data members of `Restart`: the `DFS` base-class part, `root` and
`best`. -/
structure Restart (S D : Type) where
  dfs : D
  root : Option S
  best : Option S

/-- What a call of `Restart::next` leaves behind: the engine afterwards, the
pointer handed to the caller and the calls made. -/
structure NextResult (S D : Type) where
  engine : Restart S D
  result : Option S
  calls : List (Call S)

/-- What the constructor leaves behind: the engine, the caller's space (on
which `status()` has been run) and the calls made. -/
structure InitResult (S D : Type) where
  engine : Restart S D
  space : S
  calls : List (Call S)

variable {S D O : Type}

/-- Embeds `Restart::Restart(Space* s, size_t sz, const Search::Options& o)`:
```
DFS(s,sz,o),
root(s->status() == SS_FAILED ? NULL : s->clone()), best(NULL) {}
``` -/
def Restart.new (ops : Ops S D O) (s : S) (sz : Nat) (o : O) : InitResult S D :=
  let d := ops.dfsInit s sz o
  let st := ops.status s
  if st.1 = SpaceStatus.SS_FAILED then
    { engine := { dfs := d, root := none, best := none }
      space := st.2
      calls := [Call.dfsInit s, Call.status s] }
  else
    { engine := { dfs := d, root := some (ops.clone st.2), best := none }
      space := st.2
      calls := [Call.dfsInit s, Call.status s, Call.clone st.2] }

/-- The first statement of `Restart::next`:
```
if (best != NULL) {
  root->constrain(*best);
  reset(root);
}
```
`none` is the dereference of a null `root`. -/
def Restart.restart (ops : Ops S D O) (e : Restart S D) :
    Option (Restart S D × List (Call S)) :=
  match e.best with
  | none => some (e, [])
  | some b =>
    match e.root with
    | none => none
    | some r =>
      let r1 := ops.constrain r b
      some ({ e with dfs := ops.reset e.dfs r1, root := some r1 },
            [Call.constrain r b, Call.reset r1])

/-- Embeds `Space* Restart::next(void)`:
```
if (best != NULL) { root->constrain(*best); reset(root); }
delete best;
best = DFS::next();
return (best != NULL) ? best->clone() : NULL;
```
`none` is undefined behaviour (a null `root` is dereferenced). -/
def Restart.next (ops : Ops S D O) (e : Restart S D) : Option (NextResult S D) :=
  match Restart.restart ops e with
  | none => none
  | some (e1, cs) =>
    let found := ops.dfsNext e1.dfs
    let e2 : Restart S D := { e1 with dfs := found.2, best := found.1 }
    match found.1 with
    | some b =>
      some { engine := e2
             result := some (ops.clone b)
             calls := cs ++ [Call.deleteBest e.best, Call.dfsNext, Call.clone b] }
    | none =>
      some { engine := e2
             result := none
             calls := cs ++ [Call.deleteBest e.best, Call.dfsNext] }

/-- The state of the `DFS` base-class part at the moment `Restart::next`
calls `DFS::next()`: reset from the constrained root when a best is stored,
untouched otherwise. -/
def Restart.searchState (ops : Ops S D O) (e : Restart S D) : D :=
  match e.best, e.root with
  | some b, some r => ops.reset e.dfs (ops.constrain r b)
  | _, _ => e.dfs

/-- Successive calls of `next()`: the outcome of each of `n` calls made one
after the other, `none` when one of them is undefined. -/
def Restart.run (ops : Ops S D O) : Nat → Restart S D → Option (List (NextResult S D))
  | 0, _ => some []
  | n + 1, e =>
    match Restart.next ops e with
    | none => none
    | some r =>
      match Restart.run ops n r.engine with
      | none => none
      | some rs => some (r :: rs)

/-- The engine as a run of calls leaves it: the engine after the last call,
or the starting engine when no call was made. -/
def Restart.lastEngine (e : Restart S D) (rs : List (NextResult S D)) : Restart S D :=
  (rs.getLast?.map (fun x => x.engine)).getD e

/-- The `DFS` base-class part after `k` calls of `DFS::next()` with no
`reset` in between. -/
def Ops.dfsRepeat (ops : Ops S D O) : Nat → D → D
  | 0, d => d
  | k + 1, d => (ops.dfsNext (Ops.dfsRepeat ops k d)).2

/-! ## A small instance

Spaces are lists of candidate objective values over `Fin 4`; depth-first
search hands out the candidates in order, one singleton space at a time;
`constrain` keeps the candidates below the head of the best. -/

/-- Objective value of a space of the instance: its first candidate. -/
def toyObj (s : List (Fin 4)) : Nat := (s.headD 0).val

/-- An instance of `Ops` used to exhibit concrete runs. -/
def toyOps : Ops (List (Fin 4)) (List (Fin 4)) Unit where
  status := fun s =>
    (match s with
     | [] => SpaceStatus.SS_FAILED
     | [_] => SpaceStatus.SS_SOLVED
     | _ => SpaceStatus.SS_BRANCH, s)
  clone := fun s => s
  constrain := fun r b => r.filter (fun v => decide (v.val < toyObj b))
  dfsInit := fun s _ _ => s
  reset := fun _ r => r
  dfsNext := fun d =>
    match d with
    | [] => (none, [])
    | v :: t => (some [v], t)

/-- Solutions of a space of the instance: its candidates, as singletons. -/
def toySol (r s : List (Fin 4)) : Prop := ∃ v, v ∈ r ∧ s = [v]

/-- Strictly better in the instance: a smaller objective value. -/
def toyBetter (s b : List (Fin 4)) : Prop := toyObj s < toyObj b

end Search

/-! ## Integer views (`gecode/int/view/int.hpp`)

The namespace `Gecode::Int` is left out of the names below, since `Int` is
the type of integers here. -/

/-- Value of a C++ `int` expression whose mathematical value is `z`,
overflow wrapping modulo `2^32` into `[-2^31, 2^31)`. -/
def wrap32 (z : Int) : Int := (z + 2 ^ 31) % 2 ^ 32 - 2 ^ 31

/-- Modelled from the spec: the modification events `ModEvent` (section 3 of
the specification); the declaration of `ModEvent` is not among the sources. -/
inductive ModEvent where
  | ME_NONE
  | ME_VAL
  | ME_BND
  | ME_DOM
  | ME_FAILED
  deriving DecidableEq

/-- The member functions of `IntVarImp` that `IntView` calls; the class is
not among the sources.  `H` is the store (the home space with the variable
implementations that live in it), `P` a pointer to a variable implementation,
`I` and `J` the range and value iterators handed to the bulk updates (passed
by reference, hence returned), `Δ` the type `Delta`.  A mutation returns its
`ModEvent` and the store afterwards; `in_` is `in`. -/
structure IntVarImpOps (H P I J Δ : Type) where
  min : H → P → Int
  max : H → P → Int
  med : H → P → Int
  val : H → P → Int
  size : H → P → Nat
  width : H → P → Nat
  regret_min : H → P → Nat
  regret_max : H → P → Nat
  range : H → P → Bool
  assigned : H → P → Bool
  in_ : H → P → Int → Bool
  lq : H → P → Int → ModEvent × H
  gq : H → P → Int → ModEvent × H
  nq : H → P → Int → ModEvent × H
  eq : H → P → Int → ModEvent × H
  narrow_r : H → P → I → Bool → ModEvent × H × I
  inter_r : H → P → I → Bool → ModEvent × H × I
  minus_r : H → P → I → Bool → ModEvent × H × I
  narrow_v : H → P → J → Bool → ModEvent × H × J
  inter_v : H → P → J → Bool → ModEvent × H × J
  minus_v : H → P → J → Bool → ModEvent × H × J
  modevent : Δ → ModEvent
  minDelta : Δ → Int
  maxDelta : Δ → Int
  any : Δ → Bool
  copy : H → P → Bool → P × H

/-- The class `IntView`: its only data member is the pointer `varimp` inherited from
`VarViewBase<IntVarImp>`. -/
structure IntView (P : Type) where
  varimp : P

section IntViewOps

variable {H P I J Δ : Type}

/-- Embeds `IntView::min(void) const`: `return varimp->min();` -/
def IntView.min (ops : IntVarImpOps H P I J Δ) (h : H) (x : IntView P) : Int :=
  ops.min h x.varimp

/-- Embeds `IntView::max(void) const`: `return varimp->max();` -/
def IntView.max (ops : IntVarImpOps H P I J Δ) (h : H) (x : IntView P) : Int :=
  ops.max h x.varimp

/-- Embeds `IntView::med(void) const`: `return varimp->med();` -/
def IntView.med (ops : IntVarImpOps H P I J Δ) (h : H) (x : IntView P) : Int :=
  ops.med h x.varimp

/-- Embeds `IntView::val(void) const`: `return varimp->val();` -/
def IntView.val (ops : IntVarImpOps H P I J Δ) (h : H) (x : IntView P) : Int :=
  ops.val h x.varimp

/-- Embeds `IntView::size(void) const`: `return varimp->size();` -/
def IntView.size (ops : IntVarImpOps H P I J Δ) (h : H) (x : IntView P) : Nat :=
  ops.size h x.varimp

/-- Embeds `IntView::width(void) const`: `return varimp->width();` -/
def IntView.width (ops : IntVarImpOps H P I J Δ) (h : H) (x : IntView P) : Nat :=
  ops.width h x.varimp

/-- Embeds `IntView::regret_min(void) const`: `return varimp->regret_min();` -/
def IntView.regret_min (ops : IntVarImpOps H P I J Δ) (h : H) (x : IntView P) : Nat :=
  ops.regret_min h x.varimp

/-- Embeds `IntView::regret_max(void) const`: `return varimp->regret_max();` -/
def IntView.regret_max (ops : IntVarImpOps H P I J Δ) (h : H) (x : IntView P) : Nat :=
  ops.regret_max h x.varimp

/-- Embeds `IntView::range(void) const`: `return varimp->range();` -/
def IntView.range (ops : IntVarImpOps H P I J Δ) (h : H) (x : IntView P) : Bool :=
  ops.range h x.varimp

/-- Embeds `IntView::assigned(void) const`: `return varimp->assigned();` -/
def IntView.assigned (ops : IntVarImpOps H P I J Δ) (h : H) (x : IntView P) : Bool :=
  ops.assigned h x.varimp

/-- Embeds `IntView::in(int n) const`: `return varimp->in(n);` -/
def IntView.in_ (ops : IntVarImpOps H P I J Δ) (h : H) (x : IntView P) (n : Int) : Bool :=
  ops.in_ h x.varimp n

/-- Embeds `IntView::lq(Space& home, int n)`: `return varimp->lq(home,n);` -/
def IntView.lq (ops : IntVarImpOps H P I J Δ) (h : H) (x : IntView P) (n : Int) :
    ModEvent × H :=
  ops.lq h x.varimp n

/-- Embeds `IntView::le(Space& home, int n)`: `return varimp->lq(home,n-1);` -/
def IntView.le (ops : IntVarImpOps H P I J Δ) (h : H) (x : IntView P) (n : Int) :
    ModEvent × H :=
  ops.lq h x.varimp (wrap32 (n - 1))

/-- Embeds `IntView::gq(Space& home, int n)`: `return varimp->gq(home,n);` -/
def IntView.gq (ops : IntVarImpOps H P I J Δ) (h : H) (x : IntView P) (n : Int) :
    ModEvent × H :=
  ops.gq h x.varimp n

/-- Embeds `IntView::gr(Space& home, int n)`: `return varimp->gq(home,n+1);` -/
def IntView.gr (ops : IntVarImpOps H P I J Δ) (h : H) (x : IntView P) (n : Int) :
    ModEvent × H :=
  ops.gq h x.varimp (wrap32 (n + 1))

/-- Embeds `IntView::nq(Space& home, int n)`: `return varimp->nq(home,n);` -/
def IntView.nq (ops : IntVarImpOps H P I J Δ) (h : H) (x : IntView P) (n : Int) :
    ModEvent × H :=
  ops.nq h x.varimp n

/-- Embeds `IntView::eq(Space& home, int n)`: `return varimp->eq(home,n);` -/
def IntView.eq (ops : IntVarImpOps H P I J Δ) (h : H) (x : IntView P) (n : Int) :
    ModEvent × H :=
  ops.eq h x.varimp n

/-- Embeds `IntView::narrow_r(Space& home, I& i, bool depend)`:
`return varimp->narrow_r(home,i,depend);` (after the compile-time check
`Iter::Ranges::IsRangeIter<I>()`). -/
def IntView.narrow_r (ops : IntVarImpOps H P I J Δ) (h : H) (x : IntView P) (i : I)
    (depend : Bool) : ModEvent × H × I :=
  ops.narrow_r h x.varimp i depend

/-- Embeds `IntView::inter_r(Space& home, I& i, bool depend)`:
`return varimp->inter_r(home,i,depend);` -/
def IntView.inter_r (ops : IntVarImpOps H P I J Δ) (h : H) (x : IntView P) (i : I)
    (depend : Bool) : ModEvent × H × I :=
  ops.inter_r h x.varimp i depend

/-- Embeds `IntView::minus_r(Space& home, I& i, bool depend)`:
`return varimp->minus_r(home,i,depend);` -/
def IntView.minus_r (ops : IntVarImpOps H P I J Δ) (h : H) (x : IntView P) (i : I)
    (depend : Bool) : ModEvent × H × I :=
  ops.minus_r h x.varimp i depend

/-- Embeds `IntView::narrow_v(Space& home, I& i, bool depend)`:
`return varimp->narrow_v(home,i,depend);` (after the compile-time check
`Iter::Values::IsValueIter<I>()`). -/
def IntView.narrow_v (ops : IntVarImpOps H P I J Δ) (h : H) (x : IntView P) (i : J)
    (depend : Bool) : ModEvent × H × J :=
  ops.narrow_v h x.varimp i depend

/-- Embeds `IntView::inter_v(Space& home, I& i, bool depend)`:
`return varimp->inter_v(home,i,depend);` -/
def IntView.inter_v (ops : IntVarImpOps H P I J Δ) (h : H) (x : IntView P) (i : J)
    (depend : Bool) : ModEvent × H × J :=
  ops.inter_v h x.varimp i depend

/-- Embeds `IntView::minus_v(Space& home, I& i, bool depend)`:
`return varimp->minus_v(home,i,depend);` -/
def IntView.minus_v (ops : IntVarImpOps H P I J Δ) (h : H) (x : IntView P) (i : J)
    (depend : Bool) : ModEvent × H × J :=
  ops.minus_v h x.varimp i depend

/-- Embeds `IntView::modevent(const Delta& d)`: `return IntVarImp::modevent(d);` -/
def IntView.modevent (ops : IntVarImpOps H P I J Δ) (_x : IntView P) (d : Δ) : ModEvent :=
  ops.modevent d

/-- Embeds `IntView::min(const Delta& d) const`: `return IntVarImp::min(d);` -/
def IntView.minDelta (ops : IntVarImpOps H P I J Δ) (_x : IntView P) (d : Δ) : Int :=
  ops.minDelta d

/-- Embeds `IntView::max(const Delta& d) const`: `return IntVarImp::max(d);` -/
def IntView.maxDelta (ops : IntVarImpOps H P I J Δ) (_x : IntView P) (d : Δ) : Int :=
  ops.maxDelta d

/-- Embeds `IntView::any(const Delta& d) const`: `return IntVarImp::any(d);` -/
def IntView.any (ops : IntVarImpOps H P I J Δ) (_x : IntView P) (d : Δ) : Bool :=
  ops.any d

/-- What `IntView::update` leaves behind: the store, the view it was called
on and the view `src` it was given by reference. -/
structure UpdateResult (H P : Type) where
  home : H
  view : IntView P
  src : IntView P

/-- Embeds `IntView::update(Space& home, bool share, IntView& x)`:
`varimp = x.varimp->copy(home,share);`, called on the view `this` with the
source view `src` (a different object). -/
def IntView.update (ops : IntVarImpOps H P I J Δ) (h : H) (_this : IntView P)
    (share : Bool) (src : IntView P) : UpdateResult H P :=
  let c := ops.copy h src.varimp share
  { home := c.2, view := { varimp := c.1 }, src := src }

end IntViewOps

/-! ## A list-based integer variable implementation

One variable whose domain is an increasing list of integers; the store is
that list.  It serves to run the view operations on concrete domains. -/

/-- Modelled from the spec: the `ModEvent` of a mutation that replaces the
domain `old` by `new` (section 3: failed when empty, none when unchanged,
value when a single value is left, bound when a bound moved, domain
otherwise); `IntVarImp` is not among the sources. -/
def listEvent (old new : List Int) : ModEvent :=
  if new = [] then ModEvent.ME_FAILED
  else if new = old then ModEvent.ME_NONE
  else if new.length = 1 then ModEvent.ME_VAL
  else if new.head? = old.head? ∧ new.getLast? = old.getLast? then ModEvent.ME_DOM
  else ModEvent.ME_BND

/-- Modelled from the spec: membership of `v` in one of the ranges of a range
iterator; `IntVarImp` and the iterators are not among the sources. -/
def inRanges (rs : List (Int × Int)) (v : Int) : Bool :=
  rs.any (fun r => decide (r.1 ≤ v ∧ v ≤ r.2))

/-- Modelled from the spec: `IntVarImp` over a domain kept as an increasing
list (section 4.2: read accessors, `lq`/`gq` tighten the upper/lower bound,
`nq` removes a value, `eq` forces equality, the bulk updates intersect with or
subtract the iterated values); the class itself is not among the sources.
The `Delta` of a change carries its event, bounds and `any` flag. -/
def listImp : IntVarImpOps (List Int) Unit (List (Int × Int)) (List Int)
    (ModEvent × Int × Int × Bool) where
  min := fun h _ => h.head?.getD 0
  max := fun h _ => h.getLast?.getD 0
  med := fun h _ => h.getD ((h.length - 1) / 2) 0
  val := fun h _ => h.head?.getD 0
  size := fun h _ => h.length
  width := fun h _ => (h.getLast?.getD 0 - h.head?.getD 0 + 1).toNat
  regret_min := fun h _ =>
    match h with
    | a :: b :: _ => (b - a).toNat
    | _ => 0
  regret_max := fun h _ =>
    match h.reverse with
    | a :: b :: _ => (a - b).toNat
    | _ => 0
  range := fun h _ => decide ((h.getLast?.getD 0 - h.head?.getD 0 + 1).toNat = h.length)
  assigned := fun h _ => decide (h.length = 1)
  in_ := fun h _ n => decide (n ∈ h)
  lq := fun h _ n => (listEvent h (h.filter (fun v => decide (v ≤ n))),
                      h.filter (fun v => decide (v ≤ n)))
  gq := fun h _ n => (listEvent h (h.filter (fun v => decide (n ≤ v))),
                      h.filter (fun v => decide (n ≤ v)))
  nq := fun h _ n => (listEvent h (h.filter (fun v => decide (v ≠ n))),
                      h.filter (fun v => decide (v ≠ n)))
  eq := fun h _ n => (listEvent h (h.filter (fun v => decide (v = n))),
                      h.filter (fun v => decide (v = n)))
  narrow_r := fun h _ i _ => (listEvent h (h.filter (inRanges i)), h.filter (inRanges i), [])
  inter_r := fun h _ i _ => (listEvent h (h.filter (inRanges i)), h.filter (inRanges i), [])
  minus_r := fun h _ i _ =>
    (listEvent h (h.filter (fun v => !inRanges i v)), h.filter (fun v => !inRanges i v), [])
  narrow_v := fun h _ i _ =>
    (listEvent h (h.filter (fun v => decide (v ∈ i))), h.filter (fun v => decide (v ∈ i)), [])
  inter_v := fun h _ i _ =>
    (listEvent h (h.filter (fun v => decide (v ∈ i))), h.filter (fun v => decide (v ∈ i)), [])
  minus_v := fun h _ i _ =>
    (listEvent h (h.filter (fun v => decide (v ∉ i))), h.filter (fun v => decide (v ∉ i)), [])
  modevent := fun d => d.1
  minDelta := fun d => d.2.1
  maxDelta := fun d => d.2.2.1
  any := fun d => d.2.2.2
  copy := fun h p _ => (p, h)


/-! ## Hash combination (`gecode/support/hash.hpp`)

`std::size_t` has `w` bits; its values are the naturals below `2^w` and every
operation on it is reduced modulo `2^w`.  The three overloads of `cmb_hash`
take the names `cmb_hash`, `cmb_hash_int` and `cmb_hash_uint`; each returns
the new value of `seed`. -/

/-- Embeds `cmb_hash(std::size_t& seed, std::size_t h)`:
`seed ^= h + 0x9e3779b9 + (seed << 6) + (seed >> 2);` -/
def cmb_hash (w seed h : Nat) : Nat :=
  let c := 0x9e3779b9 % 2 ^ w
  let shl := (seed <<< 6) % 2 ^ w
  let shr := seed >>> 2
  seed ^^^ ((((h + c) % 2 ^ w + shl) % 2 ^ w + shr) % 2 ^ w)

/-- Embeds `cmb_hash(std::size_t& seed, int h)`:
`cmb_hash(seed, static_cast<std::size_t>(h));`, the conversion of an `int` to
`std::size_t` being reduction modulo `2^w`. -/
def cmb_hash_int (w seed : Nat) (h : Int) : Nat :=
  cmb_hash w seed (h % 2 ^ w).toNat

/-- Embeds `cmb_hash(std::size_t& seed, unsigned int h)`:
`cmb_hash(seed, static_cast<std::size_t>(h));` -/
def cmb_hash_uint (w seed h : Nat) : Nat :=
  cmb_hash w seed (h % 2 ^ w)

/-! ## The CpltSet test space (`test/cpltset.cc`)

The test space holds set variables `x`, integer variables `y` and a control
variable `b`.  The variable classes, `Base::rand`, the range iterators and
`Gecode::Limits::Set::card_max` are not among the sources; they are
parameters.  `int` and `unsigned int` have 32 bits. -/

namespace Test.CpltSet

/-- Value of `static_cast<unsigned int>(z)` for an `int` `z`, and of an
`int` operand converted for arithmetic with an `unsigned int`. -/
def toUnsigned (z : Int) : Nat := (z % 4294967296).toNat

/-- Sum of two `unsigned int` values. -/
def uadd32 (a b : Nat) : Nat := (a + b) % 4294967296

/-- Difference of two `unsigned int` values. -/
def usub32 (a b : Nat) : Nat := (a + 4294967296 - b % 4294967296) % 4294967296

/-- The relation types that `CpltSetTestSpace::rel(int, IntRelType, int)`
distinguishes. -/
inductive IntRelType where
  | IRT_EQ
  | IRT_NQ
  | IRT_LQ
  | IRT_LE
  | IRT_GQ
  | IRT_GR
  deriving DecidableEq

/-- Whether the value `val` of `y[i]` satisfies `y[i] irt n`, read as
`CpltSetTestSpace::rel(int, IntRelType, int)` logs the relation: `=`, `!=`,
`<=`, `<`, `>=`, `>`. -/
def IntRelType.holds : IntRelType → Int → Int → Bool
  | IntRelType.IRT_EQ, val, n => decide (val = n)
  | IntRelType.IRT_NQ, val, n => decide (val ≠ n)
  | IntRelType.IRT_LQ, val, n => decide (val ≤ n)
  | IntRelType.IRT_LE, val, n => decide (val < n)
  | IntRelType.IRT_GQ, val, n => decide (val ≥ n)
  | IntRelType.IRT_GR, val, n => decide (val > n)

/-- The tell operations that `prune` performs on the space. -/
inductive Tell where
  /-- The call `rel(i, irt, n)` on the integer variable `y[i]`. -/
  | relInt (i : Nat) (irt : IntRelType) (n : Int)
  /-- The call `cardinality(i, cmin, cmax)` on the set variable `x[i]`. -/
  | cardinality (i : Nat) (cmin cmax : Int)
  deriving DecidableEq

/-- Whether a tell keeps the assignment: `aint` is the value `a.ints()[i]`
assigned to `y[i]`, `aisize` the cardinality of the set `a[i]` assigned to
`x[i]`; `cardinality(i, cmin, cmax)` is read as it is logged,
`cmin <= #(x[i]) <= cmax`. -/
def Tell.admits : Tell → Int → Nat → Bool
  | Tell.relInt _ irt n, aint, _ => irt.holds aint n
  | Tell.cardinality _ cmin cmax, _, aisize =>
    decide (cmin ≤ (aisize : Int)) && decide ((aisize : Int) ≤ cmax)

/-- What one pruning case computes: the value `v` or `newc`, whether its
assertions hold, and the tell it performs. -/
structure PruneStep where
  value : Int
  asserted : Bool
  tell : Tell

/-- Embeds case 0 of the integer switch of `CpltSetTestSpace::prune`:
```
if (a.ints()[i] < y[i].max()) {
  int v=a.ints()[i]+1+
    Base::rand(static_cast<unsigned int>(y[i].max()-a.ints()[i]));
  assert((v > a.ints()[i]) && (v <= y[i].max()));
  rel(i, Gecode::IRT_LE, v);
}
```
with `ai` for `a.ints()[i]` and `ymax` for `y[i].max()`; `none` when the guard
is false and nothing is posted. -/
def pruneIntCase0 (rand : Nat → Nat) (i : Nat) (ai ymax : Int) : Option PruneStep :=
  if ai < ymax then
    let r := rand (toUnsigned (wrap32 (ymax - ai)))
    let v := wrap32 (uadd32 (toUnsigned (wrap32 (ai + 1))) r)
    some { value := v
           asserted := decide (v > ai) && decide (v ≤ ymax)
           tell := Tell.relInt i IntRelType.IRT_LE v }
  else none

/-- Embeds case 1 of the integer switch of `CpltSetTestSpace::prune`:
```
if (a.ints()[i] > y[i].min()) {
  int v=y[i].min()+
    Base::rand(static_cast<unsigned int>(a.ints()[i]-y[i].min()));
  assert((v < a.ints()[i]) && (v >= y[i].min()));
  rel(i, Gecode::IRT_GR, v);
}
```
with `ymin` for `y[i].min()`; `none` when the guard is false. -/
def pruneIntCase1 (rand : Nat → Nat) (i : Nat) (ai ymin : Int) : Option PruneStep :=
  if ai > ymin then
    let r := rand (toUnsigned (wrap32 (ai - ymin)))
    let v := wrap32 (uadd32 (toUnsigned ymin) r)
    some { value := v
           asserted := decide (v < ai) && decide (v ≥ ymin)
           tell := Tell.relInt i IntRelType.IRT_GR v }
  else none

/-- Embeds case 2 of the set switch of `CpltSetTestSpace::prune`:
```
if (x[i].cardMin() < aisize) {
  unsigned int newc = x[i].cardMin() + 1 +
    Base::rand(aisize - x[i].cardMin());
  assert( newc > x[i].cardMin() );
  assert( newc <= aisize );
  cardinality(i, newc, Gecode::Limits::Set::card_max);
}
```
with `card_max` for `Gecode::Limits::Set::card_max` as the `int` that
`cardinality` receives; `none` when the guard is false. -/
def pruneSetCase2 (rand : Nat → Nat) (card_max : Int) (i : Nat) (cardMin aisize : Nat) :
    Option PruneStep :=
  if cardMin < aisize then
    let r := rand (usub32 aisize cardMin)
    let newc := uadd32 (uadd32 cardMin 1) r
    some { value := newc
           asserted := decide (newc > cardMin) && decide (newc ≤ aisize)
           tell := Tell.cardinality i (wrap32 newc) card_max }
  else none

/-- Embeds case 3 of the set switch of `CpltSetTestSpace::prune`:
```
if (x[i].cardMax() > aisize) {
  unsigned int newc = x[i].cardMax() - 1 -
    Base::rand(x[i].cardMax() - aisize);
  assert( newc < x[i].cardMax() );
  assert( newc >= aisize );
  cardinality(i, 0, newc);
}
```
`none` when the guard is false. -/
def pruneSetCase3 (rand : Nat → Nat) (i : Nat) (cardMax aisize : Nat) : Option PruneStep :=
  if cardMax > aisize then
    let r := rand (usub32 cardMax aisize)
    let newc := usub32 (usub32 cardMax 1) r
    some { value := newc
           asserted := decide (newc < cardMax) && decide (newc ≥ aisize)
           tell := Tell.cardinality i 0 (wrap32 newc) }
  else none

/-- Number of values of a domain given by its ranges (`y[i].size()`). -/
def rangesSize (rs : List (Int × Int)) : Nat :=
  (rs.map (fun r => (r.2 - r.1 + 1).toNat)).sum

/-- An increasing sequence of disjoint, non-empty ranges of `int` values. -/
def RangesOk : List (Int × Int) → Prop
  | [] => True
  | r :: rest =>
    -2147483648 ≤ r.1 ∧ r.1 ≤ r.2 ∧ r.2 < 2147483648 ∧
    (∀ q, rest.head? = some q → r.2 < q.1) ∧ RangesOk rest

/-- Embeds the scan of the default case of the integer switch of
`CpltSetTestSpace::prune`:
```
while (true) {
  if (it.width() > skip) {
    v = it.min() + skip;
    if (v == a.ints()[i]) {
      if (it.width() == 1) {
        ++it; v = it.min();
      } else if (v < it.max()) {
        ++v;
      } else {
        --v;
      }
    }
    break;
  }
  skip -= it.width();
  ++it;
}
```
The iterator `it` is the list of ranges not yet passed, its head the current
range `(it.min(), it.max())` of width `it.max() - it.min() + 1`.  The result
is the selected `v`; `none` when the iterator is read after it has stepped
past the last range.  In `skip -= it.width()` the width is at most `skip`. -/
def pruneIntScan (ai : Int) : List (Int × Int) → Nat → Option Int
  | [], _ => none
  | r :: rest, skip =>
    let width := (r.2 - r.1 + 1).toNat
    if width > skip then
      let v := wrap32 (uadd32 (toUnsigned r.1) skip)
      if v = ai then
        if width = 1 then
          match rest with
          | [] => none
          | q :: _ => some q.1
        else if v < r.2 then some (wrap32 (v + 1))
        else some (wrap32 (v - 1))
      else some v
    else pruneIntScan ai rest (skip - width)

/-- Embeds the default case of the integer switch of
`CpltSetTestSpace::prune`:
```
int v;
Gecode::Int::ViewRanges<Gecode::Int::IntView> it(y[i]);
unsigned int skip = Base::rand(y[i].size()-1);
while (true) { ... }
rel(i, Gecode::IRT_NQ, v);
```
with `ranges` the ranges of `y[i]`; `none` when the scan reads past the last
range. -/
def pruneIntDefault (rand : Nat → Nat) (i : Nat) (ai : Int) (ranges : List (Int × Int)) :
    Option Tell :=
  let skip := rand (usub32 (rangesSize ranges % 4294967296) 1)
  match pruneIntScan ai ranges skip with
  | none => none
  | some v => some (Tell.relInt i IntRelType.IRT_NQ v)

/-- The members of `CpltSetTestSpace` that hold variables and flags: `x`,
`y`, `withInt`, `b`, `reified`; `X`, `Y` and `B` are the states of a set
variable, an integer variable and a Boolean variable. -/
structure CpltSetTestSpace (X Y B : Type) where
  x : List X
  y : List Y
  withInt : Int
  b : B
  reified : Bool

/-- The member function `assigned()` of each of the three variable
classes. -/
structure VarOps (X Y B : Type) where
  xAssigned : X → Bool
  yAssigned : Y → Bool
  bAssigned : B → Bool

/-- The loop `for (int i=v.size(); i--; ) if (!v[i].assigned()) return false;`
started with `i` indices still to visit: `false` when it returns `false`,
`true` when it runs to its end. -/
def assignedLoop {α : Type} (asg : α → Bool) (v : List α) : Nat → Bool
  | 0 => true
  | i + 1 =>
    match v[i]? with
    | some a => if !asg a then false else assignedLoop asg v i
    | none => false

/-- Embeds `CpltSetTestSpace::assigned(void) const`:
```
for (int i=x.size(); i--; )
  if (!x[i].assigned())
    return false;
for (int i=y.size(); i--; )
  if (!y[i].assigned())
    return false;
return true;
``` -/
def CpltSetTestSpace.assigned {X Y B : Type} (ops : VarOps X Y B)
    (s : CpltSetTestSpace X Y B) : Bool :=
  if !assignedLoop ops.xAssigned s.x s.x.length then false
  else if !assignedLoop ops.yAssigned s.y s.y.length then false
  else true

/-! ### Spaces and propagators, modelled from the specification

`CpltSetTestSpace::fixprob` runs `status()`, `clone()` and a second `post()`.
`Gecode::Space` and the propagators are not among the sources; the part of
them that `fixprob` exercises is modelled from sections 3, 4.4 and 4.6 of the
specification.  The type `σ` stands for the domains of all variables of a
space (for the test space: of `x`, `y` and `b`). -/

/-- Modelled from the spec: the `ExecStatus` a propagator reports (section 3:
`ES_OK`, `ES_NOFIX`, `ES_FIX`, `ES_SUBSUMED`, `ES_FAILED`); the type is not
among the sources. -/
inductive ExecStatus where
  | ES_FAILED
  | ES_NOFIX
  | ES_OK
  | ES_FIX
  | ES_SUBSUMED
  deriving DecidableEq

/-- Modelled from the spec: the propagation condition of a subscription
(section 3, "`PC_*`: on value / bound / any change"); the type is not among
the sources. -/
inductive PropCond where
  | PC_VAL
  | PC_BND
  | PC_DOM
  deriving DecidableEq

/-- Modelled from the spec: a propagator (section 3): its subscription set
(each entry the index of a variable and a propagation condition), its cost
class on the given domains, and its `propagate` operation, which from the
variable domains returns the status it reports and the pruned domains.  The
class `Propagator` is not among the sources. -/
structure Propagator (σ : Type) where
  subs : List (Nat × PropCond)
  cost : σ → Nat
  propagate : σ → ExecStatus × σ

/-- Modelled from the spec: what the variable implementations, which are not
among the sources, decide for the scheduling rule (sections 4.2 and 4.4):
`events d d1` lists the events that a change of the domains from `d` to `d1`
raises, each with the index of its variable, and `event_matches e pc` tells
whether the event `e` matches the propagation condition `pc`. -/
structure Events (σ : Type) where
  events : σ → σ → List (Nat × ModEvent)
  event_matches : ModEvent → PropCond → Bool

/-- Modelled from the spec: the test of the scheduling rule (section 4.4,
"for each subscriber `(p, pc)`: if `event_matches(e, pc)`"): the change of
the domains from `d` to `d1` raises, on a variable that `p` subscribes to, an
event that matches the propagation condition of that subscription.  The
dependency lists of the variable implementations are not among the
sources. -/
def Events.wakes {σ : Type} (ev : Events σ) (p : Propagator σ) (d d1 : σ) : Bool :=
  (ev.events d d1).any (fun e =>
    p.subs.any (fun sub => decide (sub.1 = e.1) && ev.event_matches e.2 sub.2))

/-- Modelled from the spec: the change of the domains from `d` to `d1` raises
`ME_FAILED` on some variable (section 4.4, "if `e == ME_FAILED`, mark the
space failed instead"); the variable implementations are not among the
sources. -/
def Events.fails {σ : Type} (ev : Events σ) (d d1 : σ) : Bool :=
  (ev.events d d1).any (fun e => decide (e.2 = ModEvent.ME_FAILED))

/-- Modelled from the spec: the part of `Space` that propagation works on
(sections 3 and 4.4): the variable domains, the scheduled propagators of all
cost classes in the order in which they were scheduled, the attached
propagators that are not scheduled, and the failed flag.  The class `Space`
is not among the sources. -/
structure Space (σ : Type) where
  store : σ
  queue : List (Propagator σ)
  idle : List (Propagator σ)
  failed : Bool

/-- Modelled from the spec: posting (section 6, "creates and attaches a
propagator instance"); the new propagator is scheduled for its first run.
The posting functions are not among the sources. -/
def Space.post {σ : Type} (p : Propagator σ) (s : Space σ) : Space σ :=
  { s with queue := s.queue ++ [p] }

/-- Modelled from the spec: `clone()` (section 3, "an independent space with
byte-equivalent semantics"); `Space::clone` is not among the sources. -/
def Space.clone {σ : Type} (s : Space σ) : Space σ := s

/-- Modelled from the spec: the scheduling rule (section 4.4) for a change of
the domains to `d1`: when an event is `ME_FAILED` the space is marked failed;
otherwise each attached propagator that is not scheduled and has a
subscription matched by a raised event is scheduled, and the others stay at
rest.  Domains that stay as they are raise no event.  The variable
implementations and `Space` are not among the sources. -/
def Space.notify {σ : Type} [DecidableEq σ] (ev : Events σ) (d1 : σ) (s : Space σ) :
    Space σ :=
  if d1 = s.store then s
  else if ev.fails s.store d1 then { s with failed := true }
  else
    { s with store := d1,
             queue := s.queue ++ s.idle.filter (fun p => ev.wakes p s.store d1),
             idle := s.idle.filter (fun p => !ev.wakes p s.store d1) }

/-- Modelled from the spec: a domain mutation made from outside a propagator
(sections 4.2 and 4.4): `f` gives the new domains and the scheduling rule is
applied to the change.  The tell functions `Gecode::rel`, `Gecode::dom` and
`Gecode::cardinality` are not among the sources. -/
def Space.tell {σ : Type} [DecidableEq σ] (ev : Events σ) (f : σ → σ) (s : Space σ) :
    Space σ :=
  Space.notify ev (f s.store) s

/-- Modelled from the spec: the choice of the propagator to run (section 4.4,
"pick a non-empty queue of lowest cost class; dequeue one propagator", with
the order of section 5, first-in-first-out within a cost class): the first
scheduled propagator of least cost, and the scheduled propagators left.
`Space::status` is not among the sources. -/
def Space.pick {σ : Type} (d : σ) :
    List (Propagator σ) → Option (Propagator σ × List (Propagator σ))
  | [] => none
  | p :: q =>
    match Space.pick d q with
    | none => some (p, [])
    | some (m, rest) => if p.cost d ≤ m.cost d then some (p, q) else some (m, p :: rest)

/-- Modelled from the spec: the second half of the execution rule of
`status()` (section 4.4, "act on the return"): `s0` is the space with the
propagator `p` dequeued, `s1` that space after the scheduling rule has been
applied to the change `p` made, `st` the status `p` reported: `ES_FAILED`
fails the space, `ES_SUBSUMED` removes `p`, `ES_FIX` leaves `p` dequeued,
`ES_OK` and `ES_NOFIX` queue it again.  `Space::status` is not among the
sources. -/
def Space.act {σ : Type} (st : ExecStatus) (p : Propagator σ) (s0 s1 : Space σ) : Space σ :=
  match st with
  | ExecStatus.ES_FAILED => { s0 with failed := true }
  | ExecStatus.ES_SUBSUMED => s1
  | ExecStatus.ES_FIX => if s1.failed then s1 else { s1 with idle := s1.idle ++ [p] }
  | ExecStatus.ES_OK => if s1.failed then s1 else { s1 with queue := s1.queue ++ [p] }
  | ExecStatus.ES_NOFIX => if s1.failed then s1 else { s1 with queue := s1.queue ++ [p] }

/-- Modelled from the spec: one round of the execution rule of `status()`
(section 4.4): the dequeued propagator `p` is run on the domains, the
scheduling rule is applied to the change it makes, and its return is acted
on; `q` are the scheduled propagators left.  `Space::status` is not among the
sources. -/
def Space.step {σ : Type} [DecidableEq σ] (ev : Events σ) (s : Space σ) (p : Propagator σ)
    (q : List (Propagator σ)) : Space σ :=
  Space.act (p.propagate s.store).1 p { s with queue := q }
    (Space.notify ev (p.propagate s.store).2 { s with queue := q })

/-- Modelled from the spec: the loop of `status()` (section 4.4): it repeats
the execution rule until the space is failed or no propagator is scheduled;
`none` when `fuel` rounds do not suffice.  `Space::status` is not among the
sources. -/
def Space.propagateLoop {σ : Type} [DecidableEq σ] (ev : Events σ) :
    Nat → Space σ → Option (Space σ)
  | 0, _ => none
  | fuel + 1, s =>
    if s.failed then some s
    else
      match Space.pick s.store s.queue with
      | none => some s
      | some (p, q) => Space.propagateLoop ev fuel (Space.step ev s p q)

/-- Modelled from the spec: `status()` (section 4.6): runs the loop and
returns `SS_FAILED` for a failed space and `SS_SOLVED` otherwise, the test
space having no brancher.  `Space::status` is not among the sources. -/
def Space.status {σ : Type} [DecidableEq σ] (ev : Events σ) (fuel : Nat) (s : Space σ) :
    Option (SpaceStatus × Space σ) :=
  match Space.propagateLoop ev fuel s with
  | none => none
  | some s1 =>
    some (if s1.failed then SpaceStatus.SS_FAILED else SpaceStatus.SS_SOLVED, s1)

/-- The two posting functions of the test, `test->post(this,x,y)` and
`test->post(this,x,y,b)`, each as the propagator it posts. -/
structure TestPosts (σ : Type) where
  post : Propagator σ
  postReified : Propagator σ

/-- The test space as `fixprob` uses it: the `Space` base-class part, whose
domains are those of `x`, `y` and `b`, and the member `reified`. -/
structure TestSpace (σ : Type) where
  space : Space σ
  reified : Bool

/-- The test space right after its constructor: the domains `d`, no
propagator, not failed. -/
def TestSpace.new {σ : Type} (d : σ) (reified : Bool) : TestSpace σ :=
  { space := { store := d, queue := [], idle := [], failed := false }, reified := reified }

/-- Embeds `CpltSetTestSpace::post(void)`:
```
if (reified){
  test->post(this,x,y,b);
} else {
  test->post(this,x,y);
}
```
(logging left out). -/
def CpltSetTestSpace.post {σ : Type} (test : TestPosts σ) (s : TestSpace σ) : TestSpace σ :=
  if s.reified then { s with space := Space.post test.postReified s.space }
  else { s with space := Space.post test.post s.space }

/-- Embeds `CpltSetTestSpace::failed(void)`:
`return status() == Gecode::SS_FAILED;` (logging left out), with the space as
`status()` leaves it; `none` when `status()` does not return within `fuel`
rounds. -/
def CpltSetTestSpace.failed {σ : Type} [DecidableEq σ] (ev : Events σ) (fuel : Nat)
    (s : TestSpace σ) : Option (Bool × TestSpace σ) :=
  match Space.status ev fuel s.space with
  | none => none
  | some r => some (decide (r.1 = SpaceStatus.SS_FAILED), { s with space := r.2 })

/-- An instance of `VarOps` in which the state of a variable is whether it
is assigned. -/
def flagVarOps : VarOps Bool Bool Bool where
  xAssigned := fun v => v
  yAssigned := fun v => v
  bAssigned := fun v => v

end Test.CpltSet

namespace Search

/-! ## Properties of `Restart::next` -/

theorem Restart.restart_dfs (ops : Ops S D O) (e : Restart S D)
    (e1 : Restart S D) (cs : List (Call S)) (h : Restart.restart ops e = some (e1, cs)) :
    e1.dfs = Restart.searchState ops e := by
  unfold Restart.restart at h
  unfold Restart.searchState
  cases hb : e.best with
  | none =>
    rw [hb] at h
    simp only [Option.some.injEq, Prod.mk.injEq] at h
    rw [← h.1]
  | some b =>
    rw [hb] at h
    cases hr : e.root with
    | none => rw [hr] at h; simp at h
    | some r =>
      rw [hr] at h
      simp only [Option.some.injEq, Prod.mk.injEq] at h
      rw [← h.1]

theorem Restart.restart_defined (ops : Ops S D O) (e : Restart S D)
    (h : e.best ≠ none → e.root ≠ none) :
    ∃ p, Restart.restart ops e = some p := by
  unfold Restart.restart
  cases hb : e.best with
  | none => exact ⟨_, rfl⟩
  | some b =>
    cases hr : e.root with
    | none => exact absurd hr (h (by simp [hb]))
    | some r => exact ⟨_, rfl⟩

/-- What `next()` does when no best is stored. -/
theorem Restart.next_of_no_best (ops : Ops S D O) (e : Restart S D) (hb : e.best = none) :
    ∃ res, Restart.next ops e = some res ∧
      res.engine = { dfs := (ops.dfsNext e.dfs).2, root := e.root,
                     best := (ops.dfsNext e.dfs).1 } ∧
      res.result = (ops.dfsNext e.dfs).1.map ops.clone ∧
      res.calls = Call.deleteBest none :: Call.dfsNext ::
        ((ops.dfsNext e.dfs).1.map Call.clone).toList := by
  unfold Restart.next Restart.restart
  rw [hb]
  simp only
  cases hf : (ops.dfsNext e.dfs).1 with
  | none => exact ⟨_, rfl, rfl, rfl, rfl⟩
  | some s => exact ⟨_, rfl, rfl, rfl, rfl⟩

/-- What `next()` does when a best is stored (and `root` is not null). -/
theorem Restart.next_of_best (ops : Ops S D O) (e : Restart S D) (b r : S)
    (hb : e.best = some b) (hr : e.root = some r) :
    ∃ res, Restart.next ops e = some res ∧
      res.engine = { dfs := (ops.dfsNext (ops.reset e.dfs (ops.constrain r b))).2,
                     root := some (ops.constrain r b),
                     best := (ops.dfsNext (ops.reset e.dfs (ops.constrain r b))).1 } ∧
      res.result = (ops.dfsNext (ops.reset e.dfs (ops.constrain r b))).1.map ops.clone ∧
      res.calls = Call.constrain r b :: Call.reset (ops.constrain r b) ::
        Call.deleteBest (some b) :: Call.dfsNext ::
        ((ops.dfsNext (ops.reset e.dfs (ops.constrain r b))).1.map Call.clone).toList := by
  unfold Restart.next Restart.restart
  rw [hb, hr]
  simp only
  cases hf : (ops.dfsNext (ops.reset e.dfs (ops.constrain r b))).1 with
  | none => exact ⟨_, rfl, rfl, rfl, rfl⟩
  | some s => exact ⟨_, rfl, rfl, rfl, rfl⟩

/-- A call of `next()` on an engine whose stored best comes with a root
returns, and it stores what the `DFS::next()` it runs has found. -/
theorem Restart.next_defined (ops : Ops S D O) (e : Restart S D)
    (h : e.best ≠ none → e.root ≠ none) :
    ∃ r, Restart.next ops e = some r ∧
      r.engine.best = (ops.dfsNext (Restart.searchState ops e)).1 ∧
      (r.result = none ↔ (ops.dfsNext (Restart.searchState ops e)).1 = none) := by
  obtain ⟨⟨e1, cs⟩, hp⟩ := Restart.restart_defined ops e h
  have hd := Restart.restart_dfs ops e e1 cs hp
  unfold Restart.next
  rw [hp]
  simp only
  rw [hd]
  cases hf : (ops.dfsNext (Restart.searchState ops e)).1 with
  | none => exact ⟨_, rfl, rfl, by simp⟩
  | some b => exact ⟨_, rfl, rfl, by simp⟩

/-- Every defined call of `next()` is one of the two cases above. -/
theorem Restart.next_inv (ops : Ops S D O) (e : Restart S D) (res : NextResult S D)
    (h : Restart.next ops e = some res) :
    res.result = res.engine.best.map ops.clone ∧
    ((e.best = none ∧ res.engine.root = e.root ∧
        res.engine.best = (ops.dfsNext e.dfs).1) ∨
     (∃ b r, e.best = some b ∧ e.root = some r ∧
        res.engine.root = some (ops.constrain r b) ∧
        res.engine.best = (ops.dfsNext (ops.reset e.dfs (ops.constrain r b))).1)) := by
  cases hb : e.best with
  | none =>
    obtain ⟨res1, h1, h2, h3, _⟩ := Restart.next_of_no_best ops e hb
    rw [h] at h1
    cases h1
    refine ⟨by rw [h3, h2], Or.inl ⟨rfl, by rw [h2], by rw [h2]⟩⟩
  | some b =>
    cases hr : e.root with
    | none =>
      unfold Restart.next Restart.restart at h
      rw [hb, hr] at h
      cases h
    | some r =>
      obtain ⟨res1, h1, h2, h3, _⟩ := Restart.next_of_best ops e b r hb hr
      rw [h] at h1
      cases h1
      refine ⟨by rw [h3, h2], Or.inr ⟨b, r, rfl, rfl, by rw [h2], by rw [h2]⟩⟩

/-- A run of `n + 1` calls is a first call followed by a run of `n` calls. -/
theorem Restart.run_succ (ops : Ops S D O) (n : Nat) (e : Restart S D)
    (rs : List (NextResult S D)) (h : Restart.run ops (n + 1) e = some rs) :
    ∃ r rs1, Restart.next ops e = some r ∧ Restart.run ops n r.engine = some rs1 ∧
      rs = r :: rs1 := by
  unfold Restart.run at h
  cases hn : Restart.next ops e with
  | none => rw [hn] at h; cases h
  | some r =>
    rw [hn] at h
    simp only at h
    cases hrun : Restart.run ops n r.engine with
    | none => rw [hrun] at h; cases h
    | some rs1 =>
      rw [hrun] at h
      simp only [Option.some.injEq] at h
      exact ⟨r, rs1, rfl, hrun, h.symm⟩

/-- In an unbroken run of solutions started with a best stored, every
solution satisfies whatever the first constrained root enforces, provided
`constrain` only removes solutions. -/
theorem Restart.run_keeps_constraint (ops : Ops S D O) (sol : S → S → Prop) (P : S → Prop)
    (hdfs : ∀ d r s, (ops.dfsNext (ops.reset d r)).1 = some s → sol r s)
    (hmono : ∀ r b s, sol (ops.constrain r b) s → sol r s) :
    ∀ (n : Nat) (e : Restart S D) (rs : List (NextResult S D)) (be : S),
      e.best = some be →
      (∀ r0, e.root = some r0 → ∀ s, sol (ops.constrain r0 be) s → P s) →
      Restart.run ops n e = some rs →
      (∀ x ∈ rs, x.result ≠ none) →
      ∀ x ∈ rs, ∃ b, x.engine.best = some b ∧ x.result = some (ops.clone b) ∧ P b := by
  intro n
  induction n with
  | zero =>
    intro e rs be _ _ hrun _ x hx
    simp only [Restart.run, Option.some.injEq] at hrun
    subst hrun
    cases hx
  | succ n ih =>
    intro e rs be hbe hP hrun hall x hx
    obtain ⟨r, rs1, hnext, hrun1, hrs⟩ := Restart.run_succ ops n e rs hrun
    subst hrs
    obtain ⟨hres, hcase⟩ := Restart.next_inv ops e r hnext
    rcases hcase with ⟨hnone, _, _⟩ | ⟨b, r0, hb, hr0, hroot, hbest⟩
    · rw [hbe] at hnone; cases hnone
    · rw [hbe] at hb
      cases hb
      have hr_some : r.result ≠ none := hall r (List.mem_cons_self _ _)
      cases hfound : r.engine.best with
      | none => rw [hres, hfound] at hr_some; exact absurd rfl hr_some
      | some b1 =>
        have hsol : sol (ops.constrain r0 be) b1 := by
          apply hdfs e.dfs
          rw [← hbest, hfound]
        have hPb1 : P b1 := hP r0 hr0 b1 hsol
        rcases List.mem_cons.mp hx with hx | hx
        · subst hx
          exact ⟨b1, hfound, by rw [hres, hfound]; rfl, hPb1⟩
        · refine ih r.engine rs1 b1 hfound ?_ hrun1
            (fun y hy => hall y (List.mem_cons_of_mem _ hy)) x hx
          intro r1 hr1 s hs
          rw [hroot] at hr1
          cases hr1
          exact hP r0 hr0 s (hmono _ _ _ hs)

theorem Restart.lastEngine_cons (e : Restart S D) (r : NextResult S D)
    (rs : List (NextResult S D)) :
    Restart.lastEngine e (r :: rs) = Restart.lastEngine r.engine rs := by
  unfold Restart.lastEngine
  cases rs with
  | nil => rfl
  | cons a l => rw [List.getLast?_cons_cons]; rfl

/-- Every call of a run hands out the clone of the best it stores. -/
theorem Restart.run_result_clone (ops : Ops S D O) :
    ∀ (n : Nat) (e : Restart S D) (rs : List (NextResult S D)),
      Restart.run ops n e = some rs →
      ∀ x ∈ rs, x.result = x.engine.best.map ops.clone := by
  intro n
  induction n with
  | zero =>
    intro e rs hrun x hx
    simp only [Restart.run, Option.some.injEq] at hrun
    subst hrun
    cases hx
  | succ n ih =>
    intro e rs hrun x hx
    obtain ⟨r, rs1, hnext, hrun1, hrs⟩ := Restart.run_succ ops n e rs hrun
    subst hrs
    rcases List.mem_cons.mp hx with hx | hx
    · subst hx
      exact (Restart.next_inv ops e x hnext).1
    · exact ih r.engine rs1 hrun1 x hx

/-- Along an unbroken run of solutions the constrained root never loses a
solution of `r0` that is strictly better than the stored best. -/
theorem Restart.run_keeps_candidates (ops : Ops S D O) (sol better : S → S → Prop) (r0 : S)
    (hsound : ∀ d r s, (ops.dfsNext (ops.reset d r)).1 = some s → sol r s)
    (hcon : ∀ r b s, sol (ops.constrain r b) s ↔ sol r s ∧ better s b)
    (htrans : ∀ a b c, better a b → better b c → better a c) :
    ∀ (n : Nat) (e : Restart S D) (rs : List (NextResult S D)) (R b : S),
      e.root = some R → e.best = some b →
      (∀ s, sol r0 s → better s b → sol (ops.constrain R b) s) →
      Restart.run ops n e = some rs →
      (∀ x ∈ rs, x.result ≠ none) →
      ∃ R1 b1, (Restart.lastEngine e rs).root = some R1 ∧
        (Restart.lastEngine e rs).best = some b1 ∧
        ∀ s, sol r0 s → better s b1 → sol (ops.constrain R1 b1) s := by
  intro n
  induction n with
  | zero =>
    intro e rs R b hR hb hinv hrun _
    simp only [Restart.run, Option.some.injEq] at hrun
    subst hrun
    exact ⟨R, b, hR, hb, hinv⟩
  | succ n ih =>
    intro e rs R b hR hb hinv hrun hall
    obtain ⟨r, rs1, hnext, hrun1, hrs⟩ := Restart.run_succ ops n e rs hrun
    subst hrs
    rw [Restart.lastEngine_cons]
    obtain ⟨hres, hcase⟩ := Restart.next_inv ops e r hnext
    rcases hcase with ⟨hnone, _, _⟩ | ⟨b2, R2, hb2, hR2, hroot, hbest⟩
    · rw [hb] at hnone; cases hnone
    · rw [hb] at hb2
      rw [hR] at hR2
      cases hb2
      cases hR2
      have hr_some : r.result ≠ none := hall r (List.mem_cons_self _ _)
      cases hfound : r.engine.best with
      | none => rw [hres, hfound] at hr_some; exact absurd rfl hr_some
      | some b1 =>
        have hsol : sol (ops.constrain R b) b1 := by
          apply hsound e.dfs
          rw [← hbest, hfound]
        have hb1 : better b1 b := ((hcon R b b1).mp hsol).2
        refine ih r.engine rs1 (ops.constrain R b) b1 hroot hfound ?_ hrun1
          (fun y hy => hall y (List.mem_cons_of_mem _ hy))
        intro s hs hsb
        exact (hcon _ _ _).mpr ⟨hinv s hs (htrans _ _ _ hsb hb1), hsb⟩

/-- When every solution the next call can find has an objective value below
`m`, and each later solution has a smaller value than the one before, at most
`m` solutions are returned before a call returns null. -/
theorem Restart.run_bounded (ops : Ops S D O) (obj : S → Nat)
    (himprove : ∀ d r b s,
      (ops.dfsNext (ops.reset d (ops.constrain r b))).1 = some s → obj s < obj b) :
    ∀ (m : Nat) (e : Restart S D) (r0 : S), e.root = some r0 →
      (∀ s, (ops.dfsNext (Restart.searchState ops e)).1 = some s → obj s < m) →
      ∃ k rs last, k ≤ m ∧ Restart.run ops (k + 1) e = some (rs ++ [last]) ∧
        rs.length = k ∧ (∀ z ∈ rs, z.result ≠ none) ∧ last.result = none := by
  intro m
  induction m with
  | zero =>
    intro e r0 hroot hbound
    obtain ⟨r, h1, h2, h3⟩ := Restart.next_defined ops e
      (fun _ => by rw [hroot]; exact Option.some_ne_none r0)
    have hnone : (ops.dfsNext (Restart.searchState ops e)).1 = none := by
      cases hq : (ops.dfsNext (Restart.searchState ops e)).1 with
      | none => rfl
      | some q => exact absurd (hbound q hq) (Nat.not_lt_zero _)
    refine ⟨0, [], r, Nat.le_refl 0, ?_, rfl, (fun z hz => absurd hz (List.not_mem_nil z)), h3.mpr hnone⟩
    simp [Restart.run, h1]
  | succ m ih =>
    intro e r0 hroot hbound
    obtain ⟨r, h1, h2, h3⟩ := Restart.next_defined ops e
      (fun _ => by rw [hroot]; exact Option.some_ne_none r0)
    cases hq : (ops.dfsNext (Restart.searchState ops e)).1 with
    | none =>
      refine ⟨0, [], r, Nat.zero_le _, ?_, rfl, (fun z hz => absurd hz (List.not_mem_nil z)), h3.mpr hq⟩
      simp [Restart.run, h1]
    | some q =>
      have hbest : r.engine.best = some q := by rw [h2, hq]
      obtain ⟨_, hcase⟩ := Restart.next_inv ops e r h1
      have hroot1 : ∃ r1, r.engine.root = some r1 := by
        rcases hcase with ⟨_, hr, _⟩ | ⟨b, r2, _, _, hr, _⟩
        · exact ⟨r0, by rw [hr, hroot]⟩
        · exact ⟨_, hr⟩
      obtain ⟨r1, hr1⟩ := hroot1
      have hq_lt : obj q < m + 1 := hbound q hq
      have hbound1 : ∀ s, (ops.dfsNext (Restart.searchState ops r.engine)).1 = some s →
          obj s < m := by
        intro s hs
        have hstate : Restart.searchState ops r.engine =
            ops.reset r.engine.dfs (ops.constrain r1 q) := by
          unfold Restart.searchState
          rw [hbest, hr1]
        rw [hstate] at hs
        have := himprove _ _ _ _ hs
        omega
      obtain ⟨k, rs, last, hk, hrun, hlen, hall, hlast⟩ := ih r.engine r1 hr1 hbound1
      refine ⟨k + 1, r :: rs, last, Nat.succ_le_succ hk, ?_, by simp [hlen], ?_, hlast⟩
      · show Restart.run ops (k + 1 + 1) e = some (r :: rs ++ [last])
        rw [Restart.run, h1]
        simp only
        rw [hrun]
        rfl
      · intro z hz
        rcases List.mem_cons.mp hz with hz | hz
        · subst hz
          intro hnone
          rw [h3.mp hnone] at hq
          cases hq
        · exact hall z hz

/-- Facts about the small instance. -/
theorem toy_constrain_sol (r b s : List (Fin 4)) :
    toySol (toyOps.constrain r b) s ↔ toySol r s ∧ toyBetter s b := by
  unfold toySol toyBetter
  constructor
  · rintro ⟨v, hv, rfl⟩
    simp only [toyOps, List.mem_filter, decide_eq_true_eq] at hv
    exact ⟨⟨v, hv.1, rfl⟩, hv.2⟩
  · rintro ⟨⟨v, hv, rfl⟩, hlt⟩
    refine ⟨v, ?_, rfl⟩
    simp only [toyOps, List.mem_filter, decide_eq_true_eq]
    exact ⟨hv, hlt⟩

/-- Depth-first search of the small instance returns a candidate of the
space it was reset to. -/
theorem toy_dfs_sound (d r s : List (Fin 4))
    (h : (toyOps.dfsNext (toyOps.reset d r)).1 = some s) : toySol r s := by
  cases r with
  | nil => simp [toyOps] at h
  | cons v t =>
    simp only [toyOps, Option.some.injEq] at h
    exact ⟨v, List.mem_cons_self _ _, h.symm⟩

/-- Depth-first search of the small instance returns null only on a space
without candidates. -/
theorem toy_dfs_complete (d r : List (Fin 4))
    (h : (toyOps.dfsNext (toyOps.reset d r)).1 = none) : ∀ s, ¬ toySol r s := by
  cases r with
  | nil =>
    rintro s ⟨v, hv, _⟩
    cases hv
  | cons v t => simp [toyOps] at h

/-- C1: for every engine state in which the call is defined (a stored best
comes with a non-null root), `next()` returns; it returns null exactly when
the `DFS::next()` it runs returns no solution, and then no best is stored;
when `DFS::next()` returns `s`, the engine stores `s` itself as best and what
the caller gets is `s->clone()`, made by the last call of `next()`. -/
theorem Restart.next_returns_clone_of_search (ops : Ops S D O) (e : Restart S D)
    (h : e.best ≠ none → e.root ≠ none) :
    ∃ r, Restart.next ops e = some r ∧
      r.engine.best = (ops.dfsNext (Restart.searchState ops e)).1 ∧
      (r.result = none ↔ (ops.dfsNext (Restart.searchState ops e)).1 = none) ∧
      (r.result = none → r.engine.best = none) ∧
      ∀ s, (ops.dfsNext (Restart.searchState ops e)).1 = some s →
        r.engine.best = some s ∧ r.result = some (ops.clone s) ∧
        r.calls.getLast? = some (Call.clone s) := by
  obtain ⟨⟨e1, cs⟩, hp⟩ := Restart.restart_defined ops e h
  have hd := Restart.restart_dfs ops e e1 cs hp
  unfold Restart.next
  rw [hp]
  simp only
  rw [hd]
  cases hf : (ops.dfsNext (Restart.searchState ops e)).1 with
  | none => exact ⟨_, rfl, by simp [hf]⟩
  | some b => exact ⟨_, rfl, by simp [hf]⟩

/-- Witness for C1 on the small instance: with best `[2]` stored and root
`[3,1,0]`, the call stores `[1]` and returns its clone. -/
theorem Restart.next_returns_clone_of_search_witness :
    ∃ r, Restart.next toyOps { dfs := [], root := some [3, 1, 0], best := some [2] } = some r ∧
      r.engine.best = some [1] ∧ r.result = some (toyOps.clone [1]) := by
  obtain ⟨r, h1, h2, _, _, h5⟩ := Restart.next_returns_clone_of_search toyOps
    { dfs := [], root := some [3, 1, 0], best := some [2] } (by simp)
  have hs : (toyOps.dfsNext (Restart.searchState toyOps
      { dfs := [], root := some [3, 1, 0], best := some [2] })).1 = some [1] := by decide
  exact ⟨r, h1, (h5 _ hs).1, (h5 _ hs).2.1⟩

/-- C2: a call of `next()` made while a best `b` is stored first applies
`root->constrain(*b)`, then `reset(root)` on the constrained root, and only
then drops the best and runs `DFS::next()`, which searches from the engine
just reset; a call made with no best stored performs neither `constrain` nor
`reset`, leaves `root` as it is and runs `DFS::next()` on the engine as it
stands. -/
theorem Restart.next_constrain_reset_iff_best (ops : Ops S D O) (e : Restart S D) :
    (∀ b r, e.best = some b → e.root = some r →
      ∃ res tail, Restart.next ops e = some res ∧
        res.engine.root = some (ops.constrain r b) ∧
        (res.engine.best, res.engine.dfs) =
          ops.dfsNext (ops.reset e.dfs (ops.constrain r b)) ∧
        res.calls = Call.constrain r b :: Call.reset (ops.constrain r b) ::
          Call.deleteBest (some b) :: Call.dfsNext :: tail ∧
        ∀ c ∈ tail, (∀ x y, c ≠ Call.constrain x y) ∧ (∀ x, c ≠ Call.reset x) ∧
          c ≠ Call.dfsNext) ∧
    (e.best = none →
      ∃ res, Restart.next ops e = some res ∧
        res.engine.root = e.root ∧
        (res.engine.best, res.engine.dfs) = ops.dfsNext e.dfs ∧
        ∀ c ∈ res.calls, (∀ x y, c ≠ Call.constrain x y) ∧ (∀ x, c ≠ Call.reset x)) := by
  refine ⟨?_, ?_⟩
  · intro b r hb hr
    obtain ⟨res, h1, h2, _, h4⟩ := Restart.next_of_best ops e b r hb hr
    refine ⟨res, _, h1, by rw [h2], by rw [h2], h4, ?_⟩
    intro c hc
    cases hf : (ops.dfsNext (ops.reset e.dfs (ops.constrain r b))).1 with
    | none => rw [hf] at hc; simp at hc
    | some s =>
      rw [hf] at hc
      simp only [Option.map_some', Option.toList_some, List.mem_singleton] at hc
      subst hc
      exact ⟨fun _ _ h => Call.noConfusion h, fun _ h => Call.noConfusion h,
        fun h => Call.noConfusion h⟩
  · intro hb
    obtain ⟨res, h1, h2, _, h4⟩ := Restart.next_of_no_best ops e hb
    refine ⟨res, h1, by rw [h2], by rw [h2], ?_⟩
    intro c hc
    rw [h4] at hc
    simp only [List.mem_cons] at hc
    rcases hc with hc | hc | hc
    · subst hc
      exact ⟨fun _ _ h => Call.noConfusion h, fun _ h => Call.noConfusion h⟩
    · subst hc
      exact ⟨fun _ _ h => Call.noConfusion h, fun _ h => Call.noConfusion h⟩
    · cases hf : (ops.dfsNext e.dfs).1 with
      | none => rw [hf] at hc; simp at hc
      | some s =>
        rw [hf] at hc
        simp only [Option.map_some', Option.toList_some, List.mem_singleton] at hc
        subst hc
        exact ⟨fun _ _ h => Call.noConfusion h, fun _ h => Call.noConfusion h⟩

/-- Witness for C2 on the small instance: with best `[2]` stored and root
`[3,1,0]` the root becomes `[1,0]` and the search runs on the engine reset to
it. -/
theorem Restart.next_constrain_reset_iff_best_witness :
    ∃ res tail,
      Restart.next toyOps { dfs := [], root := some [3, 1, 0], best := some [2] } = some res ∧
      res.engine.root = some [1, 0] ∧
      (res.engine.best, res.engine.dfs) = (some [1], [0]) ∧
      res.calls = Call.constrain [3, 1, 0] [2] :: Call.reset [1, 0] ::
        Call.deleteBest (some [2]) :: Call.dfsNext :: tail := by
  obtain ⟨res, tail, h1, h2, h3, h4, _⟩ :=
    (Restart.next_constrain_reset_iff_best toyOps
      { dfs := [], root := some [3, 1, 0], best := some [2] }).1 [2] [3, 1, 0] rfl rfl
  exact ⟨res, tail, h1, h2, h3, h4⟩

/-- C3: given that `constrain(root, b)` admits only spaces strictly better
than `b` and that `DFS::next()` after `reset(root)` returns only solutions of
`root`: of two solutions returned by successive `next()` calls (clones of the
stored `b1`, `b2`), `b2` is strictly better than `b1`, and the second call has
replaced `root` by `root` constrained with `b1`.  Since `root` is only ever
constrained further, when moreover the solutions of `constrain(r, b)` are
solutions of `r`, every solution of an unbroken run of solutions that follows
a stored `b0` is strictly better than `b0`. -/
theorem Restart.successive_solutions_improve (ops : Ops S D O) (sol better : S → S → Prop)
    (hcon : ∀ r b s, sol (ops.constrain r b) s → better s b)
    (hdfs : ∀ d r s, (ops.dfsNext (ops.reset d r)).1 = some s → sol r s) :
    (∀ (e : Restart S D) (r1 r2 : NextResult S D) (c1 c2 : S),
      Restart.next ops e = some r1 → Restart.next ops r1.engine = some r2 →
      r1.result = some c1 → r2.result = some c2 →
      ∃ b1 b2 root1, r1.engine.best = some b1 ∧ c1 = ops.clone b1 ∧
        r2.engine.best = some b2 ∧ c2 = ops.clone b2 ∧ better b2 b1 ∧
        r1.engine.root = some root1 ∧
        r2.engine.root = some (ops.constrain root1 b1)) ∧
    ((∀ r b s, sol (ops.constrain r b) s → sol r s) →
      ∀ (e : Restart S D) (n : Nat) (rs : List (NextResult S D)) (b0 : S),
        e.best = some b0 → Restart.run ops n e = some rs →
        (∀ x ∈ rs, x.result ≠ none) →
        ∀ x ∈ rs, ∃ b, x.engine.best = some b ∧ x.result = some (ops.clone b) ∧
          better b b0) := by
  refine ⟨?_, ?_⟩
  · intro e r1 r2 c1 c2 h1 h2 hc1 hc2
    obtain ⟨hres1, _⟩ := Restart.next_inv ops e r1 h1
    obtain ⟨hres2, hcase⟩ := Restart.next_inv ops r1.engine r2 h2
    cases hb1 : r1.engine.best with
    | none => rw [hres1, hb1] at hc1; cases hc1
    | some b1 =>
      cases hb2 : r2.engine.best with
      | none => rw [hres2, hb2] at hc2; cases hc2
      | some b2 =>
        rw [hres1, hb1] at hc1
        rw [hres2, hb2] at hc2
        simp only [Option.map_some', Option.some.injEq] at hc1 hc2
        rcases hcase with ⟨hnone, _, _⟩ | ⟨b, r, hb, hr, hroot, hbest⟩
        · rw [hb1] at hnone; cases hnone
        · rw [hb1] at hb
          cases hb
          refine ⟨b1, b2, r, rfl, hc1.symm, rfl, hc2.symm, ?_, hr, hroot⟩
          apply hcon r
          apply hdfs r1.engine.dfs
          rw [← hbest, hb2]
  · intro hmono e n rs b0 hb0 hrun hall
    exact Restart.run_keeps_constraint ops sol (fun s => better s b0) hdfs hmono n e rs b0 hb0
      (fun r0 _ s hs => hcon r0 b0 s hs) hrun hall

/-- Witness for C3 on the small instance: from root `[3,2,0]` the first two
calls return `[3]` and `[2]`, and `[2]` is strictly better than `[3]`; the
third call returns `[0]`, which is strictly better than `[3]` as well. -/
theorem Restart.successive_solutions_improve_witness :
    (∃ b1 b2 root1 : List (Fin 4),
      b1 = [3] ∧ b2 = [2] ∧ root1 = [3, 2, 0] ∧ toyBetter b2 b1) ∧
    (∃ b : List (Fin 4), b = [0] ∧ toyBetter b [3]) := by
  have hw := Restart.successive_solutions_improve toyOps toySol toyBetter
    (fun r b s h => ((toy_constrain_sol r b s).mp h).2) toy_dfs_sound
  constructor
  · obtain ⟨b1, b2, root1, h1, _, h2, _, h3, h4, _⟩ := hw.1
      { dfs := [3, 2, 0], root := some [3, 2, 0], best := none }
      { engine := { dfs := [2, 0], root := some [3, 2, 0], best := some [3] }
        result := some [3]
        calls := [Call.deleteBest none, Call.dfsNext, Call.clone [3]] }
      { engine := { dfs := [0], root := some [2, 0], best := some [2] }
        result := some [2]
        calls := [Call.constrain [3, 2, 0] [3], Call.reset [2, 0],
                  Call.deleteBest (some [3]), Call.dfsNext, Call.clone [2]] }
      [3] [2] rfl rfl rfl rfl
    simp only [Option.some.injEq] at h1 h2 h4
    exact ⟨b1, b2, root1, h1.symm, h2.symm, h4.symm, h3⟩
  · obtain ⟨b, hb, _, hbetter⟩ := hw.2 (fun r b s h => ((toy_constrain_sol r b s).mp h).1)
      { dfs := [2, 0], root := some [3, 2, 0], best := some [3] } 2
      [{ engine := { dfs := [0], root := some [2, 0], best := some [2] }
         result := some [2]
         calls := [Call.constrain [3, 2, 0] [3], Call.reset [2, 0],
                   Call.deleteBest (some [3]), Call.dfsNext, Call.clone [2]] },
       { engine := { dfs := [], root := some [0], best := some [0] }
         result := some [0]
         calls := [Call.constrain [2, 0] [2], Call.reset [0],
                   Call.deleteBest (some [2]), Call.dfsNext, Call.clone [0]] }]
      [3] rfl rfl (by simp)
      { engine := { dfs := [], root := some [0], best := some [0] }
        result := some [0]
        calls := [Call.constrain [2, 0] [2], Call.reset [0],
                  Call.deleteBest (some [2]), Call.dfsNext, Call.clone [0]] }
      (by simp)
    simp only [Option.some.injEq] at hb
    exact ⟨b, hb.symm, hbetter⟩

/-- C4: given that `DFS::next()` after `reset(r)` returns a solution of `r`
when one exists and null otherwise, that a DFS built on `s` which returns
null at once shows `s` to have no solution, that `constrain(r, b)` keeps
exactly the solutions of `r` strictly better than `b`, and that strictly
better is transitive: in a run of `next()` calls that starts with no best
stored and root `r0` (such as the run of a new engine) and returns `n + 1`
solutions, the last of them the clone of `b`, the next call returns, and if
it returns null no solution of `r0` is strictly better than `b`.  And when
the first call on a new engine built from `s` returns null, `s` has no
solution. -/
theorem Restart.null_means_optimal (ops : Ops S D O) (sol better : S → S → Prop)
    (hsound : ∀ d r s, (ops.dfsNext (ops.reset d r)).1 = some s → sol r s)
    (hcomplete : ∀ d r, (ops.dfsNext (ops.reset d r)).1 = none → ∀ s, ¬ sol r s)
    (hinit : ∀ s sz o, (ops.dfsNext (ops.dfsInit s sz o)).1 = none → ∀ x, ¬ sol s x)
    (hcon : ∀ r b s, sol (ops.constrain r b) s ↔ sol r s ∧ better s b)
    (htrans : ∀ a b c, better a b → better b c → better a c) :
    (∀ (e : Restart S D) (r0 : S) (n : Nat) (rs : List (NextResult S D))
        (x : NextResult S D),
      e.best = none → e.root = some r0 →
      Restart.run ops (n + 1) e = some rs → (∀ z ∈ rs, z.result ≠ none) →
      rs.getLast? = some x →
      ∃ b y, x.engine.best = some b ∧ x.result = some (ops.clone b) ∧
        Restart.next ops x.engine = some y ∧
        (y.result = none → ∀ s, sol r0 s → ¬ better s b)) ∧
    (∀ (s : S) (sz : Nat) (o : O),
      ∃ r, Restart.next ops (Restart.new ops s sz o).engine = some r ∧
        (r.result = none → ∀ x, ¬ sol s x)) := by
  refine ⟨?_, ?_⟩
  · intro e r0 n rs x hbest hroot hrun hall hlast
    have hclone := Restart.run_result_clone ops (n + 1) e rs hrun
    obtain ⟨r, rs1, hnext, hrun1, hrs⟩ := Restart.run_succ ops n e rs hrun
    subst hrs
    obtain ⟨hres, hcase⟩ := Restart.next_inv ops e r hnext
    rcases hcase with ⟨_, hr_root, _⟩ | ⟨b2, _, hb2, _, _, _⟩
    · have hr_some : r.result ≠ none := hall r (List.mem_cons_self _ _)
      cases hfound : r.engine.best with
      | none => rw [hres, hfound] at hr_some; exact absurd rfl hr_some
      | some b1 =>
        rw [hroot] at hr_root
        obtain ⟨R1, b, hR1, hb, hinv⟩ := Restart.run_keeps_candidates ops sol better r0
          hsound hcon htrans n r.engine rs1 r0 b1 hr_root hfound
          (fun s hs hsb => (hcon r0 b1 s).mpr ⟨hs, hsb⟩) hrun1
          (fun y hy => hall y (List.mem_cons_of_mem _ hy))
        have hx : Restart.lastEngine r.engine rs1 = x.engine := by
          rw [← Restart.lastEngine_cons e r rs1]
          unfold Restart.lastEngine
          rw [hlast]
          rfl
        rw [hx] at hR1 hb
        obtain ⟨y, hy1, _, hy3, _⟩ := Restart.next_of_best ops x.engine b R1 hb hR1
        have hxmem : x ∈ r :: rs1 := List.mem_of_getLast?_eq_some hlast
        refine ⟨b, y, hb, ?_, hy1, ?_⟩
        · rw [hclone x hxmem, hb]
          rfl
        · intro hnone s hs hsb
          rw [hy3] at hnone
          have hdfs_none :
              (ops.dfsNext (ops.reset x.engine.dfs (ops.constrain R1 b))).1 = none := by
            cases hq : (ops.dfsNext (ops.reset x.engine.dfs (ops.constrain R1 b))).1 with
            | none => rfl
            | some q => rw [hq] at hnone; cases hnone
          exact hcomplete _ _ hdfs_none s (hinv s hs hsb)
    · rw [hbest] at hb2; cases hb2
  · intro s sz o
    have hnew : (Restart.new ops s sz o).engine.best = none := by
      unfold Restart.new
      by_cases hst : (ops.status s).1 = SpaceStatus.SS_FAILED
      · rw [if_pos hst]
      · rw [if_neg hst]
    have hdfs : (Restart.new ops s sz o).engine.dfs = ops.dfsInit s sz o := by
      unfold Restart.new
      by_cases hst : (ops.status s).1 = SpaceStatus.SS_FAILED
      · rw [if_pos hst]
      · rw [if_neg hst]
    obtain ⟨r, h1, _, h3, _⟩ := Restart.next_of_no_best ops _ hnew
    refine ⟨r, h1, ?_⟩
    intro hnone
    rw [h3, hdfs] at hnone
    apply hinit s sz o
    cases hq : (ops.dfsNext (ops.dfsInit s sz o)).1 with
    | none => rfl
    | some q => rw [hq] at hnone; cases hnone

/-- Witness for C4 on the small instance: the engine built from `[2,1]`
returns `[2]`, then `[1]`, then null, and no candidate of `[2,1]` is strictly
better than `[1]`; the engine built from `[]` returns null at once and `[]`
has no candidate. -/
theorem Restart.null_means_optimal_witness :
    (∀ s, toySol [2, 1] s → ¬ toyBetter s [1]) ∧ (∀ x, ¬ toySol [] x) := by
  have h := Restart.null_means_optimal toyOps toySol toyBetter toy_dfs_sound
    toy_dfs_complete (fun s _ _ hs => toy_dfs_complete [] s hs) toy_constrain_sol
    (fun _ _ _ hab hbc => Nat.lt_trans hab hbc)
  constructor
  · obtain ⟨b, y, hb, _, hy, hopt⟩ := h.1
      { dfs := [2, 1], root := some [2, 1], best := none } [2, 1] 1
      [{ engine := { dfs := [1], root := some [2, 1], best := some [2] }
         result := some [2]
         calls := [Call.deleteBest none, Call.dfsNext, Call.clone [2]] },
       { engine := { dfs := [], root := some [1], best := some [1] }
         result := some [1]
         calls := [Call.constrain [2, 1] [2], Call.reset [1],
                   Call.deleteBest (some [2]), Call.dfsNext, Call.clone [1]] }]
      { engine := { dfs := [], root := some [1], best := some [1] }
        result := some [1]
        calls := [Call.constrain [2, 1] [2], Call.reset [1],
                  Call.deleteBest (some [2]), Call.dfsNext, Call.clone [1]] }
      rfl rfl rfl (by simp) rfl
    simp only [Option.some.injEq] at hb
    subst hb
    have hy2 : y.result = none := by
      have hy3 : Restart.next toyOps { dfs := [], root := some [1], best := some [1] } =
          some { engine := { dfs := [], root := some [], best := none }
                 result := none
                 calls := [Call.constrain [1] [1], Call.reset [],
                           Call.deleteBest (some [1]), Call.dfsNext] } := rfl
      rw [hy3] at hy
      simp only [Option.some.injEq] at hy
      rw [← hy]
    exact hopt hy2
  · obtain ⟨r, hr, hno⟩ := h.2 [] 0 ()
    have hr2 : Restart.next toyOps (Restart.new toyOps [] 0 ()).engine =
        some { engine := { dfs := [], root := none, best := none }
               result := none
               calls := [Call.deleteBest none, Call.dfsNext] } := rfl
    rw [hr2] at hr
    simp only [Option.some.injEq] at hr
    exact hno (by rw [← hr])

/-- C5: when the objective takes at most `N` values (`obj s < N` for
every space) and every solution found after `constrain(r, b)` and `reset` has
a smaller objective value than `b`, then from every engine state whose root
is not null (or whose root is null with no best stored and a DFS that finds
nothing) some `k ≤ N` exists such that `k + 1` successive `next()` calls are
all defined, the first `k` return solutions and the last returns null. -/
theorem Restart.finitely_many_solutions (ops : Ops S D O) (obj : S → Nat) (N : Nat)
    (hrange : ∀ s, obj s < N)
    (himprove : ∀ d r b s,
      (ops.dfsNext (ops.reset d (ops.constrain r b))).1 = some s → obj s < obj b)
    (e : Restart S D)
    (hroot : e.root = none → e.best = none ∧ (ops.dfsNext e.dfs).1 = none) :
    ∃ k rs last, k ≤ N ∧ Restart.run ops (k + 1) e = some (rs ++ [last]) ∧
      rs.length = k ∧ (∀ z ∈ rs, z.result ≠ none) ∧ last.result = none := by
  cases hr : e.root with
  | some r0 =>
    exact Restart.run_bounded ops obj himprove N e r0 hr (fun s _ => hrange s)
  | none =>
    obtain ⟨hb, hd⟩ := hroot hr
    obtain ⟨r, h1, _, h3, _⟩ := Restart.next_of_no_best ops e hb
    refine ⟨0, [], r, Nat.zero_le _, ?_, rfl, (fun z hz => absurd hz (List.not_mem_nil z)),
      (by rw [h3, hd]; rfl)⟩
    simp [Restart.run, h1]

/-- Witness for C5 on the small instance (objective values below 4): from
the engine built on `[3,1,2]` some run of at most five calls ends with null
after solutions only. -/
theorem Restart.finitely_many_solutions_witness :
    ∃ k rs last, k ≤ 4 ∧
      Restart.run toyOps (k + 1) (Restart.new toyOps [3, 1, 2] 0 ()).engine
        = some (rs ++ [last]) ∧
      rs.length = k ∧ (∀ z ∈ rs, z.result ≠ none) ∧ last.result = none :=
  Restart.finitely_many_solutions toyOps toyObj 4 (fun s => (s.headD 0).isLt)
    (fun d r b s h => ((toy_constrain_sol r b s).mp (toy_dfs_sound d _ s h)).2)
    (Restart.new toyOps [3, 1, 2] 0 ()).engine (fun h => by cases h)

/-- C6: a newly constructed engine stores no best; when `s->status()` is not
`SS_FAILED` its root is the clone of `s` as `status()` left it, taken after
the `status()` call; when `s->status()` is `SS_FAILED` its root is null and no
clone is taken. -/
theorem Restart.new_root_best (ops : Ops S D O) (s : S) (sz : Nat) (o : O) :
    (Restart.new ops s sz o).engine.best = none ∧
    ((ops.status s).1 ≠ SpaceStatus.SS_FAILED →
      (Restart.new ops s sz o).engine.root = some (ops.clone (ops.status s).2) ∧
      (Restart.new ops s sz o).calls =
        [Call.dfsInit s, Call.status s, Call.clone (ops.status s).2]) ∧
    ((ops.status s).1 = SpaceStatus.SS_FAILED →
      (Restart.new ops s sz o).engine.root = none ∧
      ∀ c ∈ (Restart.new ops s sz o).calls, ∀ x, c ≠ Call.clone x) := by
  unfold Restart.new
  by_cases hst : (ops.status s).1 = SpaceStatus.SS_FAILED
  · rw [if_pos hst]
    refine ⟨rfl, fun h => absurd hst h, fun _ => ⟨rfl, ?_⟩⟩
    intro c hc x
    simp only [List.mem_cons, List.mem_singleton, List.not_mem_nil, or_false] at hc
    rcases hc with hc | hc <;> subst hc <;> intro h <;> cases h
  · rw [if_neg hst]
    exact ⟨rfl, fun _ => ⟨rfl, rfl⟩, fun h => absurd h hst⟩

/-- Witness for C6 on the small instance: from the space `[2,1]` the root is
its clone, from the failed space `[]` the root is null. -/
theorem Restart.new_root_best_witness :
    (Restart.new toyOps [2, 1] 0 ()).engine.root = some [2, 1] ∧
    (Restart.new toyOps [] 0 ()).engine.root = none :=
  ⟨((Restart.new_root_best toyOps [2, 1] 0 ()).2.1 (by decide)).1,
   ((Restart.new_root_best toyOps [] 0 ()).2.2 (by decide)).1⟩

end Search

/-! ## Properties of `IntView` -/

/-- No overflow: a value in the range of `int` is its own wrapped value. -/
theorem wrap32_of_int (z : Int) (hlo : -2147483648 ≤ z) (hhi : z < 2147483648) :
    wrap32 z = z := by
  unfold wrap32
  norm_num
  omega

/-- The list-based implementation keeps the values `≤ m` under `lq`. -/
theorem listImp_lq_keeps (h : List Int) (p : Unit) (m v : Int) :
    listImp.in_ (listImp.lq h p m).2 p v = true ↔ (listImp.in_ h p v = true ∧ v ≤ m) := by
  simp [listImp]

/-- The list-based implementation keeps the values `≥ m` under `gq`. -/
theorem listImp_gq_keeps (h : List Int) (p : Unit) (m v : Int) :
    listImp.in_ (listImp.gq h p m).2 p v = true ↔ (listImp.in_ h p v = true ∧ m ≤ v) := by
  simp [listImp]

/-- The list-based `lq` fails when no value is left. -/
theorem listImp_lq_failed (h : List Int) (p : Unit) (m : Int)
    (hno : ∀ v, listImp.in_ h p v = true → ¬ v ≤ m) :
    (listImp.lq h p m).1 = ModEvent.ME_FAILED := by
  have hempty : h.filter (fun v => decide (v ≤ m)) = [] := by
    rw [List.filter_eq_nil_iff]
    intro v hv
    have := hno v (by simp [listImp, hv])
    simpa using this
  show listEvent h (h.filter _) = ModEvent.ME_FAILED
  rw [hempty]
  rfl

/-- The list-based `gq` fails when no value is left. -/
theorem listImp_gq_failed (h : List Int) (p : Unit) (m : Int)
    (hno : ∀ v, listImp.in_ h p v = true → ¬ m ≤ v) :
    (listImp.gq h p m).1 = ModEvent.ME_FAILED := by
  have hempty : h.filter (fun v => decide (m ≤ v)) = [] := by
    rw [List.filter_eq_nil_iff]
    intro v hv
    have := hno v (by simp [listImp, hv])
    simpa using this
  show listEvent h (h.filter _) = ModEvent.ME_FAILED
  rw [hempty]
  rfl

section IntViewTheorems

variable {H P I J Δ : Type}

/-- C7: for every view, store and `int` `n`, `le(home,n)` returns the same
`ModEvent` and leaves the same store as `lq(home,n-1)`, and `gr(home,n)` the
same as `gq(home,n+1)`, with `n-1` and `n+1` evaluated in `int` arithmetic;
where these do not overflow they are the integers `n - 1` and `n + 1`. -/
theorem IntView.le_gr_sugar (ops : IntVarImpOps H P I J Δ) (h : H) (x : IntView P) (n : Int) :
    IntView.le ops h x n = IntView.lq ops h x (wrap32 (n - 1)) ∧
    IntView.gr ops h x n = IntView.gq ops h x (wrap32 (n + 1)) ∧
    (-2147483648 < n → n < 2147483648 →
      IntView.le ops h x n = IntView.lq ops h x (n - 1)) ∧
    (-2147483648 ≤ n → n < 2147483647 →
      IntView.gr ops h x n = IntView.gq ops h x (n + 1)) := by
  refine ⟨rfl, rfl, ?_, ?_⟩
  · intro hlo hhi
    unfold IntView.le IntView.lq
    rw [wrap32_of_int (n - 1) (by omega) (by omega)]
  · intro hlo hhi
    unfold IntView.gr IntView.gq
    rw [wrap32_of_int (n + 1) (by omega) (by omega)]

/-- Witness for C7 on the list-based implementation: on the domain
`[1,2,3,4]`, `le 3` is `lq 2` and `gr 3` is `gq 4`. -/
theorem IntView.le_gr_sugar_witness :
    IntView.le listImp [1, 2, 3, 4] ⟨()⟩ 3 = IntView.lq listImp [1, 2, 3, 4] ⟨()⟩ (3 - 1) ∧
    IntView.gr listImp [1, 2, 3, 4] ⟨()⟩ 3 = IntView.gq listImp [1, 2, 3, 4] ⟨()⟩ (3 + 1) :=
  ⟨(IntView.le_gr_sugar listImp [1, 2, 3, 4] ⟨()⟩ 3).2.2.1 (by decide) (by decide),
   (IntView.le_gr_sugar listImp [1, 2, 3, 4] ⟨()⟩ 3).2.2.2 (by decide) (by decide)⟩

/-- C8 (as amended): given that `lq(home,m)` / `gq(home,m)` keep exactly the
values `≤ m` / `≥ m` and return `ME_FAILED` when none is left, for every `int`
`n` above the least `int` the call `le(home,n)` leaves exactly the values of
the domain that are `< n` and returns `ME_FAILED` when there is none, and for
every `int` `n` below the greatest `int` the call `gr(home,n)` leaves exactly
the values that are `> n` and returns `ME_FAILED` when there is none. -/
theorem IntView.le_gr_strict_in_range (ops : IntVarImpOps H P I J Δ)
    (hlq : ∀ h p m v, ops.in_ (ops.lq h p m).2 p v = true ↔ (ops.in_ h p v = true ∧ v ≤ m))
    (hlqF : ∀ h p m, (∀ v, ops.in_ h p v = true → ¬ v ≤ m) →
      (ops.lq h p m).1 = ModEvent.ME_FAILED)
    (hgq : ∀ h p m v, ops.in_ (ops.gq h p m).2 p v = true ↔ (ops.in_ h p v = true ∧ m ≤ v))
    (hgqF : ∀ h p m, (∀ v, ops.in_ h p v = true → ¬ m ≤ v) →
      (ops.gq h p m).1 = ModEvent.ME_FAILED)
    (h : H) (x : IntView P) (n : Int) :
    (-2147483648 < n → n < 2147483648 →
      (∀ v, IntView.in_ ops (IntView.le ops h x n).2 x v = true ↔
        (IntView.in_ ops h x v = true ∧ v < n)) ∧
      ((∀ v, IntView.in_ ops h x v = true → ¬ v < n) →
        (IntView.le ops h x n).1 = ModEvent.ME_FAILED)) ∧
    (-2147483648 ≤ n → n < 2147483647 →
      (∀ v, IntView.in_ ops (IntView.gr ops h x n).2 x v = true ↔
        (IntView.in_ ops h x v = true ∧ n < v)) ∧
      ((∀ v, IntView.in_ ops h x v = true → ¬ n < v) →
        (IntView.gr ops h x n).1 = ModEvent.ME_FAILED)) := by
  refine ⟨?_, ?_⟩
  · intro hlo hhi
    unfold IntView.le IntView.in_
    rw [wrap32_of_int (n - 1) (by omega) (by omega)]
    refine ⟨?_, ?_⟩
    · intro v
      rw [hlq]
      constructor
      · exact fun hv => ⟨hv.1, by omega⟩
      · exact fun hv => ⟨hv.1, by omega⟩
    · intro hno
      apply hlqF
      intro v hv hle
      exact hno v hv (by omega)
  · intro hlo hhi
    unfold IntView.gr IntView.in_
    rw [wrap32_of_int (n + 1) (by omega) (by omega)]
    refine ⟨?_, ?_⟩
    · intro v
      rw [hgq]
      constructor
      · exact fun hv => ⟨hv.1, by omega⟩
      · exact fun hv => ⟨hv.1, by omega⟩
    · intro hno
      apply hgqF
      intro v hv hle
      exact hno v hv (by omega)

/-- Witness for C8 (as amended) on the list-based implementation: on the
domain `[1,2,3]`, `le 3` leaves exactly the values `< 3` and `gr 3`, which
leaves none, fails. -/
theorem IntView.le_gr_strict_in_range_witness :
    (∀ v, IntView.in_ listImp (IntView.le listImp [1, 2, 3] ⟨()⟩ 3).2 ⟨()⟩ v = true ↔
      (IntView.in_ listImp [1, 2, 3] ⟨()⟩ v = true ∧ v < 3)) ∧
    (IntView.gr listImp [1, 2, 3] ⟨()⟩ 3).1 = ModEvent.ME_FAILED := by
  have hw := IntView.le_gr_strict_in_range listImp listImp_lq_keeps listImp_lq_failed
    listImp_gq_keeps listImp_gq_failed [1, 2, 3] ⟨()⟩ 3
  refine ⟨(hw.1 (by decide) (by decide)).1, (hw.2 (by decide) (by decide)).2 ?_⟩
  intro v hv
  simp only [IntView.in_, listImp, List.mem_cons, List.mem_singleton, List.not_mem_nil,
    or_false, decide_eq_true_eq] at hv
  omega

/-- Counterexample to C8 at the extreme values: on the domain `[0]`,
`le(home,INT_MIN)` calls `lq(home,INT_MAX)` and `gr(home,INT_MAX)` calls
`gq(home,INT_MIN)`; both leave the value `0` and return `ME_NONE`, although
`0` is neither below the least nor above the greatest `int`. -/
theorem IntView.le_gr_extremes_keep_all :
    IntView.le listImp [0] ⟨()⟩ (-2147483648) = (ModEvent.ME_NONE, [0]) ∧
    ¬ (∀ v, IntView.in_ listImp (IntView.le listImp [0] ⟨()⟩ (-2147483648)).2 ⟨()⟩ v = true ↔
        (IntView.in_ listImp [0] ⟨()⟩ v = true ∧ v < -2147483648)) ∧
    IntView.gr listImp [0] ⟨()⟩ 2147483647 = (ModEvent.ME_NONE, [0]) ∧
    ¬ (∀ v, IntView.in_ listImp (IntView.gr listImp [0] ⟨()⟩ 2147483647).2 ⟨()⟩ v = true ↔
        (IntView.in_ listImp [0] ⟨()⟩ v = true ∧ 2147483647 < v)) := by
  have hle : IntView.le listImp [0] ⟨()⟩ (-2147483648) = (ModEvent.ME_NONE, [0]) := by decide
  have hgr : IntView.gr listImp [0] ⟨()⟩ 2147483647 = (ModEvent.ME_NONE, [0]) := by decide
  refine ⟨hle, ?_, hgr, ?_⟩
  · intro hall
    have h0 := (hall 0).mp (by rw [hle]; decide)
    omega
  · intro hall
    have h0 := (hall 0).mp (by rw [hgr]; decide)
    omega

/-- C9: after `x.update(home, share, src)` the view is bound to
`src.varimp->copy(home,share)` and the store is as that copy left it; the
binding the view had before does not enter the result, and the binding of
`src` is as before. -/
theorem IntView.update_rebinds (ops : IntVarImpOps H P I J Δ) (h : H) (x : IntView P)
    (share : Bool) (src : IntView P) :
    (IntView.update ops h x share src).view.varimp = (ops.copy h src.varimp share).1 ∧
    (IntView.update ops h x share src).home = (ops.copy h src.varimp share).2 ∧
    (∀ y : IntView P, IntView.update ops h y share src = IntView.update ops h x share src) ∧
    (IntView.update ops h x share src).src = src :=
  ⟨rfl, rfl, fun _ => rfl, rfl⟩

/-- C10: every read accessor, every `int` mutation `lq`, `gq`, `nq`, `eq` and
every bulk update of a view returns exactly what the same operation of the
implementation `x.varimp` returns for the same argument, store afterwards
included; the `Delta` decoders return what the static decoders of
`IntVarImp` return for `d`, whichever view they are called on. -/
theorem IntView.identity_wrapper (ops : IntVarImpOps H P I J Δ) (h : H) (x : IntView P) :
    (IntView.min ops h x = ops.min h x.varimp ∧
     IntView.max ops h x = ops.max h x.varimp ∧
     IntView.med ops h x = ops.med h x.varimp ∧
     IntView.val ops h x = ops.val h x.varimp ∧
     IntView.size ops h x = ops.size h x.varimp ∧
     IntView.width ops h x = ops.width h x.varimp ∧
     IntView.regret_min ops h x = ops.regret_min h x.varimp ∧
     IntView.regret_max ops h x = ops.regret_max h x.varimp ∧
     IntView.range ops h x = ops.range h x.varimp ∧
     IntView.assigned ops h x = ops.assigned h x.varimp ∧
     ∀ n, IntView.in_ ops h x n = ops.in_ h x.varimp n) ∧
    (∀ n, IntView.lq ops h x n = ops.lq h x.varimp n ∧
          IntView.gq ops h x n = ops.gq h x.varimp n ∧
          IntView.nq ops h x n = ops.nq h x.varimp n ∧
          IntView.eq ops h x n = ops.eq h x.varimp n) ∧
    (∀ (i : I) (depend : Bool),
          IntView.narrow_r ops h x i depend = ops.narrow_r h x.varimp i depend ∧
          IntView.inter_r ops h x i depend = ops.inter_r h x.varimp i depend ∧
          IntView.minus_r ops h x i depend = ops.minus_r h x.varimp i depend) ∧
    (∀ (i : J) (depend : Bool),
          IntView.narrow_v ops h x i depend = ops.narrow_v h x.varimp i depend ∧
          IntView.inter_v ops h x i depend = ops.inter_v h x.varimp i depend ∧
          IntView.minus_v ops h x i depend = ops.minus_v h x.varimp i depend) ∧
    (∀ (y : IntView P) (d : Δ),
          IntView.modevent ops x d = ops.modevent d ∧
          IntView.minDelta ops x d = ops.minDelta d ∧
          IntView.maxDelta ops x d = ops.maxDelta d ∧
          IntView.any ops x d = ops.any d ∧
          IntView.modevent ops x d = IntView.modevent ops y d ∧
          IntView.minDelta ops x d = IntView.minDelta ops y d ∧
          IntView.maxDelta ops x d = IntView.maxDelta ops y d ∧
          IntView.any ops x d = IntView.any ops y d) :=
  ⟨⟨rfl, rfl, rfl, rfl, rfl, rfl, rfl, rfl, rfl, rfl, fun _ => rfl⟩,
   fun _ => ⟨rfl, rfl, rfl, rfl⟩,
   fun _ _ => ⟨rfl, rfl, rfl⟩,
   fun _ _ => ⟨rfl, rfl, rfl⟩,
   fun _ _ => ⟨rfl, rfl, rfl, rfl, rfl, rfl, rfl, rfl⟩⟩

end IntViewTheorems

namespace Search

variable {S D O : Type}

/-! ## Null root and stored best -/

/-- An engine with a root keeps a root, and all its calls are defined. -/
theorem Restart.run_with_root (ops : Ops S D O) :
    ∀ (n : Nat) (e : Restart S D), e.root ≠ none →
      ∃ rs, Restart.run ops n e = some rs ∧ rs.length = n ∧
        ∀ x ∈ rs, x.engine.root ≠ none := by
  intro n
  induction n with
  | zero =>
    intro e _
    exact ⟨[], rfl, rfl, fun x hx => absurd hx (List.not_mem_nil x)⟩
  | succ n ih =>
    intro e hroot
    obtain ⟨r, h1, _, _⟩ := Restart.next_defined ops e (fun _ => hroot)
    have hroot1 : r.engine.root ≠ none := by
      obtain ⟨_, hcase⟩ := Restart.next_inv ops e r h1
      rcases hcase with ⟨_, hr, _⟩ | ⟨b, r2, _, _, hr, _⟩
      · rw [hr]; exact hroot
      · rw [hr]; exact Option.some_ne_none _
    obtain ⟨rs, hrun, hlen, hall⟩ := ih r.engine hroot1
    refine ⟨r :: rs, ?_, by simp [hlen], ?_⟩
    · rw [Restart.run, h1]
      simp only
      rw [hrun]
    · intro x hx
      rcases List.mem_cons.mp hx with hx | hx
      · subst hx; exact hroot1
      · exact hall x hx

/-- An engine with no root and no best, on a `DFS` that keeps returning
null, never stores a best and never constrains or resets. -/
theorem Restart.run_without_root (ops : Ops S D O) (d0 : D)
    (hnone : ∀ k, (ops.dfsNext (Ops.dfsRepeat ops k d0)).1 = none) :
    ∀ (n : Nat) (e : Restart S D) (k : Nat), e.root = none → e.best = none →
      e.dfs = Ops.dfsRepeat ops k d0 →
      ∃ rs, Restart.run ops n e = some rs ∧ rs.length = n ∧
        ∀ x ∈ rs, x.engine.root = none ∧ x.engine.best = none ∧ x.result = none ∧
          ∀ c ∈ x.calls, (∀ r b, c ≠ Call.constrain r b) ∧ (∀ r, c ≠ Call.reset r) := by
  intro n
  induction n with
  | zero =>
    intro e k _ _ _
    exact ⟨[], rfl, rfl, fun x hx => absurd hx (List.not_mem_nil x)⟩
  | succ n ih =>
    intro e k hroot hbest hdfs
    obtain ⟨r, h1, h2, h3, h4⟩ := Restart.next_of_no_best ops e hbest
    have hfound : (ops.dfsNext e.dfs).1 = none := by rw [hdfs]; exact hnone k
    have hr_root : r.engine.root = none := by rw [h2]; exact hroot
    have hr_best : r.engine.best = none := by rw [h2]; exact hfound
    have hr_dfs : r.engine.dfs = Ops.dfsRepeat ops (k + 1) d0 := by
      rw [h2, hdfs]
      rfl
    obtain ⟨rs, hrun, hlen, hall⟩ := ih r.engine (k + 1) hr_root hr_best hr_dfs
    refine ⟨r :: rs, ?_, by simp [hlen], ?_⟩
    · rw [Restart.run, h1]
      simp only
      rw [hrun]
    · intro x hx
      rcases List.mem_cons.mp hx with hx | hx
      · subst hx
        refine ⟨hr_root, hr_best, by rw [h3, hfound]; rfl, ?_⟩
        intro c hc
        rw [h4, hfound] at hc
        simp only [Option.map_none', Option.toList_none, List.mem_cons, List.mem_singleton,
          List.not_mem_nil, or_false] at hc
        rcases hc with hc | hc
        · subst hc
          exact ⟨fun _ _ h => Call.noConfusion h, fun _ h => Call.noConfusion h⟩
        · subst hc
          exact ⟨fun _ _ h => Call.noConfusion h, fun _ h => Call.noConfusion h⟩
      · exact hall x hx

/-- Depth-first search of the small instance on the failed space stays
empty. -/
theorem toy_dfs_failed (k : Nat) :
    (toyOps.dfsNext (Ops.dfsRepeat toyOps k (toyOps.dfsInit [] 0 ()))).1 = none := by
  have hrep : ∀ k, Ops.dfsRepeat toyOps k (toyOps.dfsInit [] 0 ()) = [] := by
    intro k
    induction k with
    | zero => rfl
    | succ k ih =>
      show (toyOps.dfsNext (Ops.dfsRepeat toyOps k (toyOps.dfsInit [] 0 ()))).2 = []
      rw [ih]
      rfl
  rw [hrep k]
  rfl

/-- C17: given that the `DFS` built on a failed initial space returns no
solution at any call, every sequence of `next()` calls on a newly constructed
engine is defined and in every state it reaches a stored best comes with a
non-null root; when the initial space is failed, root and best stay null, every
call returns null and none of them calls `constrain` or `reset`. -/
theorem Restart.best_implies_root (ops : Ops S D O) (s : S) (sz : Nat) (o : O)
    (hfailed : (ops.status s).1 = SpaceStatus.SS_FAILED →
      ∀ k, (ops.dfsNext (Ops.dfsRepeat ops k (ops.dfsInit s sz o))).1 = none)
    (n : Nat) :
    ((Restart.new ops s sz o).engine.best ≠ none →
      (Restart.new ops s sz o).engine.root ≠ none) ∧
    ∃ rs, Restart.run ops n (Restart.new ops s sz o).engine = some rs ∧ rs.length = n ∧
      (∀ x ∈ rs, x.engine.best ≠ none → x.engine.root ≠ none) ∧
      ((ops.status s).1 = SpaceStatus.SS_FAILED →
        (Restart.new ops s sz o).engine.root = none ∧
        ∀ x ∈ rs, x.engine.root = none ∧ x.engine.best = none ∧ x.result = none ∧
          ∀ c ∈ x.calls, (∀ r b, c ≠ Call.constrain r b) ∧ (∀ r, c ≠ Call.reset r)) := by
  by_cases hst : (ops.status s).1 = SpaceStatus.SS_FAILED
  · have hnew : (Restart.new ops s sz o).engine =
        { dfs := ops.dfsInit s sz o, root := none, best := none } := by
      unfold Restart.new
      rw [if_pos hst]
    rw [hnew]
    refine ⟨fun h => absurd rfl h, ?_⟩
    obtain ⟨rs, hrun, hlen, hall⟩ := Restart.run_without_root ops (ops.dfsInit s sz o)
      (hfailed hst) n { dfs := ops.dfsInit s sz o, root := none, best := none } 0 rfl rfl rfl
    refine ⟨rs, hrun, hlen, ?_, fun _ => ⟨rfl, hall⟩⟩
    intro x hx hbest
    exact absurd (hall x hx).2.1 hbest
  · have hnew : (Restart.new ops s sz o).engine =
        { dfs := ops.dfsInit s sz o, root := some (ops.clone (ops.status s).2),
          best := none } := by
      unfold Restart.new
      rw [if_neg hst]
    rw [hnew]
    refine ⟨fun h => absurd rfl h, ?_⟩
    obtain ⟨rs, hrun, hlen, hall⟩ := Restart.run_with_root ops n
      { dfs := ops.dfsInit s sz o, root := some (ops.clone (ops.status s).2), best := none }
      (Option.some_ne_none _)
    exact ⟨rs, hrun, hlen, fun x hx _ => hall x hx, fun h => absurd h hst⟩

/-- Witness for C17 on the small instance: three calls on the engine built
from the failed space `[]` are defined and store no best. -/
theorem Restart.best_implies_root_witness :
    ∃ rs, Restart.run toyOps 3 (Restart.new toyOps [] 0 ()).engine = some rs ∧
      rs.length = 3 ∧ ∀ x ∈ rs, x.engine.root = none ∧ x.engine.best = none := by
  obtain ⟨_, rs, hrun, hlen, _, hall⟩ :=
    Restart.best_implies_root toyOps [] 0 () (fun _ => toy_dfs_failed) 3
  exact ⟨rs, hrun, hlen, fun x hx => ⟨((hall (by decide)).2 x hx).1,
    ((hall (by decide)).2 x hx).2.1⟩⟩

end Search

namespace Test.CpltSet

/-! ## Properties of the pruning cases of the CpltSet test space -/

/-- The wrapped value written with numerals. -/
theorem wrap32_eq (z : Int) : wrap32 z = (z + 2147483648) % 4294967296 - 2147483648 := by
  unfold wrap32
  norm_num

/-- C14: whenever `Base::rand(k)` returns a value below `k`, for `int` values
`a_i`, `min`, `max` and cardinalities below `2^31`: in integer case 0, under
the guard `a_i < max`, `v = a_i + 1 + r` with `a_i < v <= max`; in integer
case 1, under the guard `a_i > min`, `v = min + r` with `min <= v < a_i`; in
set case 2, under the guard `cardMin < aisize`, `newc = cardMin + 1 + r` with
`cardMin < newc <= aisize`; in set case 3, under the guard `cardMax > aisize`,
`newc = cardMax - 1 - r` with `aisize <= newc < cardMax`.  In each case the
assertions evaluate to true and the tell performed keeps the assignment. -/
theorem prune_assertions_hold (rand : Nat → Nat) (hrand : ∀ k, 0 < k → rand k < k)
    (i : Nat) :
    (∀ ai ymax : Int, -2147483648 ≤ ai → ymax < 2147483648 → ai < ymax →
      ∃ st, pruneIntCase0 rand i ai ymax = some st ∧
        st.value = ai + 1 + rand (ymax - ai).toNat ∧ st.asserted = true ∧
        ai < st.value ∧ st.value ≤ ymax ∧
        st.tell = Tell.relInt i IntRelType.IRT_LE st.value ∧
        ∀ sz, st.tell.admits ai sz = true) ∧
    (∀ ai ymin : Int, -2147483648 ≤ ymin → ai < 2147483648 → ai > ymin →
      ∃ st, pruneIntCase1 rand i ai ymin = some st ∧
        st.value = ymin + rand (ai - ymin).toNat ∧ st.asserted = true ∧
        ymin ≤ st.value ∧ st.value < ai ∧
        st.tell = Tell.relInt i IntRelType.IRT_GR st.value ∧
        ∀ sz, st.tell.admits ai sz = true) ∧
    (∀ (card_max : Int) (cardMin aisize : Nat), aisize < 2147483648 →
      (aisize : Int) ≤ card_max → cardMin < aisize →
      ∃ st, pruneSetCase2 rand card_max i cardMin aisize = some st ∧
        st.value = ((cardMin + 1 + rand (aisize - cardMin) : Nat) : Int) ∧
        st.asserted = true ∧
        (cardMin : Int) < st.value ∧ st.value ≤ (aisize : Int) ∧
        st.tell = Tell.cardinality i st.value card_max ∧
        ∀ n, st.tell.admits n aisize = true) ∧
    (∀ cardMax aisize : Nat, cardMax ≤ 2147483648 → cardMax > aisize →
      ∃ st, pruneSetCase3 rand i cardMax aisize = some st ∧
        st.value = ((cardMax - 1 - rand (cardMax - aisize) : Nat) : Int) ∧
        st.asserted = true ∧
        (aisize : Int) ≤ st.value ∧ st.value < (cardMax : Int) ∧
        st.tell = Tell.cardinality i 0 st.value ∧
        ∀ n, st.tell.admits n aisize = true) := by
  refine ⟨?_, ?_, ?_, ?_⟩
  · intro ai ymax hlo hhi hlt
    have hk : toUnsigned (wrap32 (ymax - ai)) = (ymax - ai).toNat := by
      simp only [toUnsigned, wrap32_eq]
      omega
    have hr := hrand (ymax - ai).toNat (by omega)
    have hv : wrap32 (uadd32 (toUnsigned (wrap32 (ai + 1))) (rand (ymax - ai).toNat))
        = ai + 1 + rand (ymax - ai).toNat := by
      simp only [toUnsigned, wrap32_eq, uadd32]
      omega
    unfold pruneIntCase0
    rw [if_pos hlt]
    simp only [hk, hv]
    refine ⟨_, rfl, rfl, ?_, ?_, ?_, rfl, ?_⟩
    · simp only [Bool.and_eq_true, decide_eq_true_eq]
      omega
    · dsimp only
      omega
    · dsimp only
      omega
    · intro sz
      simp only [Tell.admits, IntRelType.holds, decide_eq_true_eq]
      omega
  · intro ai ymin hlo hhi hgt
    have hk : toUnsigned (wrap32 (ai - ymin)) = (ai - ymin).toNat := by
      simp only [toUnsigned, wrap32_eq]
      omega
    have hr := hrand (ai - ymin).toNat (by omega)
    have hv : wrap32 (uadd32 (toUnsigned ymin) (rand (ai - ymin).toNat))
        = ymin + rand (ai - ymin).toNat := by
      simp only [toUnsigned, wrap32_eq, uadd32]
      omega
    unfold pruneIntCase1
    rw [if_pos hgt]
    simp only [hk, hv]
    refine ⟨_, rfl, rfl, ?_, ?_, ?_, rfl, ?_⟩
    · simp only [Bool.and_eq_true, decide_eq_true_eq]
      omega
    · dsimp only
      omega
    · dsimp only
      omega
    · intro sz
      simp only [Tell.admits, IntRelType.holds, decide_eq_true_eq]
      omega
  · intro card_max cardMin aisize hsz hcm hlt
    have hk : usub32 aisize cardMin = aisize - cardMin := by
      simp only [usub32]
      omega
    have hr := hrand (aisize - cardMin) (by omega)
    have hv : uadd32 (uadd32 cardMin 1) (rand (aisize - cardMin))
        = cardMin + 1 + rand (aisize - cardMin) := by
      simp only [uadd32]
      omega
    have hw : wrap32 ((cardMin + 1 + rand (aisize - cardMin) : Nat) : Int)
        = ((cardMin + 1 + rand (aisize - cardMin) : Nat) : Int) := by
      simp only [wrap32_eq]
      omega
    unfold pruneSetCase2
    rw [if_pos hlt]
    simp only [hk, hv, hw]
    refine ⟨_, rfl, rfl, ?_, ?_, ?_, rfl, ?_⟩
    · simp only [Bool.and_eq_true, decide_eq_true_eq]
      omega
    · dsimp only
      omega
    · dsimp only
      omega
    · intro n
      simp only [Tell.admits, Bool.and_eq_true, decide_eq_true_eq]
      omega
  · intro cardMax aisize hcm hgt
    have hk : usub32 cardMax aisize = cardMax - aisize := by
      simp only [usub32]
      omega
    have hr := hrand (cardMax - aisize) (by omega)
    have hv : usub32 (usub32 cardMax 1) (rand (cardMax - aisize))
        = cardMax - 1 - rand (cardMax - aisize) := by
      simp only [usub32]
      omega
    have hw : wrap32 ((cardMax - 1 - rand (cardMax - aisize) : Nat) : Int)
        = ((cardMax - 1 - rand (cardMax - aisize) : Nat) : Int) := by
      simp only [wrap32_eq]
      omega
    unfold pruneSetCase3
    rw [if_pos hgt]
    simp only [hk, hv, hw]
    refine ⟨_, rfl, rfl, ?_, ?_, ?_, rfl, ?_⟩
    · simp only [Bool.and_eq_true, decide_eq_true_eq]
      omega
    · dsimp only
      omega
    · dsimp only
      omega
    · intro n
      simp only [Tell.admits, Bool.and_eq_true, decide_eq_true_eq]
      omega

/-- Witness for C14 with the generator that returns `k - 1` for `k`: the
four cases at `a_i = 2, max = 5`; `a_i = 2, min = -3`; `cardMin = 1,
aisize = 4`; `cardMax = 6, aisize = 4`. -/
theorem prune_assertions_hold_witness :
    (∃ st, pruneIntCase0 (fun k => k - 1) 0 2 5 = some st ∧ st.value = 5 ∧
      st.asserted = true) ∧
    (∃ st, pruneIntCase1 (fun k => k - 1) 0 2 (-3) = some st ∧ st.value = 1 ∧
      st.asserted = true) ∧
    (∃ st, pruneSetCase2 (fun k => k - 1) 100 0 1 4 = some st ∧ st.value = 4 ∧
      st.asserted = true) ∧
    (∃ st, pruneSetCase3 (fun k => k - 1) 0 6 4 = some st ∧ st.value = 4 ∧
      st.asserted = true) := by
  have hw := prune_assertions_hold (fun k => k - 1) (fun k hk => Nat.sub_lt hk Nat.one_pos) 0
  refine ⟨?_, ?_, ?_, ?_⟩
  · obtain ⟨st, h1, h2, h3, _⟩ := hw.1 2 5 (by decide) (by decide) (by decide)
    exact ⟨st, h1, by rw [h2]; decide, h3⟩
  · obtain ⟨st, h1, h2, h3, _⟩ := hw.2.1 2 (-3) (by decide) (by decide) (by decide)
    exact ⟨st, h1, by rw [h2]; decide, h3⟩
  · obtain ⟨st, h1, h2, h3, _⟩ := hw.2.2.1 100 1 4 (by decide) (by decide) (by decide)
    exact ⟨st, h1, by rw [h2]; decide, h3⟩
  · obtain ⟨st, h1, h2, h3, _⟩ := hw.2.2.2 6 4 (by decide) (by decide)
    exact ⟨st, h1, by rw [h2]; decide, h3⟩

/-! ## Properties of the default integer case of `prune` -/

/-- Membership in a non-empty list of ranges. -/
theorem inRanges_cons (r : Int × Int) (rest : List (Int × Int)) (v : Int) :
    inRanges (r :: rest) v = (decide (r.1 ≤ v ∧ v ≤ r.2) || inRanges rest v) := by
  simp [inRanges]

/-- The size of a non-empty list of ranges. -/
theorem rangesSize_cons (r : Int × Int) (rest : List (Int × Int)) :
    rangesSize (r :: rest) = (r.2 - r.1 + 1).toNat + rangesSize rest := by
  simp [rangesSize]

/-- The scan, started on well-formed ranges with a `skip` that does not
reach the last value, selects a value of the domain other than `ai`. -/
theorem pruneIntScan_spec (ai : Int) :
    ∀ (ranges : List (Int × Int)) (skip : Nat), RangesOk ranges →
      skip + 1 < rangesSize ranges →
      ∃ v, pruneIntScan ai ranges skip = some v ∧ inRanges ranges v = true ∧ v ≠ ai := by
  intro ranges
  induction ranges with
  | nil =>
    intro skip _ hsz
    simp [rangesSize] at hsz
  | cons r rest ih =>
    intro skip hok hsz
    obtain ⟨hlo, hle, hhi, hnext, hrest⟩ := hok
    rw [rangesSize_cons] at hsz
    simp only [pruneIntScan]
    by_cases hw : (r.2 - r.1 + 1).toNat > skip
    · rw [if_pos hw]
      have hv : wrap32 (uadd32 (toUnsigned r.1) skip) = r.1 + skip := by
        simp only [toUnsigned, uadd32, wrap32_eq]
        omega
      rw [hv]
      by_cases hai : r.1 + (skip : Int) = ai
      · rw [if_pos hai]
        by_cases hone : (r.2 - r.1 + 1).toNat = 1
        · rw [if_pos hone]
          cases rest with
          | nil =>
            simp only [rangesSize, List.map_nil, List.sum_nil] at hsz
            omega
          | cons q rest2 =>
            obtain ⟨_, hqle, _, _, _⟩ := hrest
            have hq := hnext q rfl
            refine ⟨q.1, rfl, ?_, ?_⟩
            · rw [inRanges_cons, inRanges_cons]
              simp only [Bool.or_eq_true, decide_eq_true_eq]
              exact Or.inr (Or.inl ⟨Int.le_refl _, hqle⟩)
            · omega
        · rw [if_neg hone]
          by_cases hlt : r.1 + (skip : Int) < r.2
          · rw [if_pos hlt]
            have hv1 : wrap32 (r.1 + skip + 1) = r.1 + skip + 1 := by
              simp only [wrap32_eq]
              omega
            rw [hv1]
            refine ⟨_, rfl, ?_, by omega⟩
            rw [inRanges_cons]
            simp only [Bool.or_eq_true, decide_eq_true_eq]
            exact Or.inl ⟨by omega, by omega⟩
          · rw [if_neg hlt]
            have hv1 : wrap32 (r.1 + skip - 1) = r.1 + skip - 1 := by
              simp only [wrap32_eq]
              omega
            rw [hv1]
            refine ⟨_, rfl, ?_, by omega⟩
            rw [inRanges_cons]
            simp only [Bool.or_eq_true, decide_eq_true_eq]
            exact Or.inl ⟨by omega, by omega⟩
      · rw [if_neg hai]
        refine ⟨_, rfl, ?_, hai⟩
        rw [inRanges_cons]
        simp only [Bool.or_eq_true, decide_eq_true_eq]
        exact Or.inl ⟨by omega, by omega⟩
    · rw [if_neg hw]
      obtain ⟨v, hscan, hin, hne⟩ := ih (skip - (r.2 - r.1 + 1).toNat) hrest (by omega)
      refine ⟨v, hscan, ?_, hne⟩
      rw [inRanges_cons, hin]
      exact Bool.or_true _

/-- C16: in the default integer case, for an unassigned `y[i]` whose domain
is an increasing sequence of disjoint ranges of `int` values and every
`skip < size - 1`, the scan ends on one of the ranges (it never reads the
iterator past the last one) and selects a value `v` of the domain that
differs from `a.ints()[i]`; the tell `y[i] != v` therefore excludes the
domain value `v` and keeps the assignment's value.  With fewer than `2^32`
values and `Base::rand(k)` below `k`, the case performs such a tell. -/
theorem pruneIntScan_selects (ai : Int) (ranges : List (Int × Int)) (hok : RangesOk ranges)
    (hsize : 2 ≤ rangesSize ranges) :
    (∀ skip, skip < rangesSize ranges - 1 →
      ∃ v, pruneIntScan ai ranges skip = some v ∧ inRanges ranges v = true ∧ v ≠ ai ∧
        IntRelType.holds IntRelType.IRT_NQ v v = false ∧
        IntRelType.holds IntRelType.IRT_NQ ai v = true) ∧
    (∀ (rand : Nat → Nat) (i : Nat), (∀ k, 0 < k → rand k < k) →
      rangesSize ranges < 4294967296 →
      ∃ v, pruneIntDefault rand i ai ranges = some (Tell.relInt i IntRelType.IRT_NQ v) ∧
        inRanges ranges v = true ∧ v ≠ ai ∧
        ∀ sz, (Tell.relInt i IntRelType.IRT_NQ v).admits ai sz = true) := by
  refine ⟨?_, ?_⟩
  · intro skip hskip
    obtain ⟨v, hscan, hin, hne⟩ := pruneIntScan_spec ai ranges skip hok (by omega)
    refine ⟨v, hscan, hin, hne, ?_, ?_⟩
    · simp [IntRelType.holds]
    · simp only [IntRelType.holds, decide_eq_true_eq]
      exact fun h => hne h.symm
  · intro rand i hrand hlt
    have hk : usub32 (rangesSize ranges % 4294967296) 1 = rangesSize ranges - 1 := by
      simp only [usub32]
      omega
    have hr := hrand (rangesSize ranges - 1) (by omega)
    obtain ⟨v, hscan, hin, hne⟩ :=
      pruneIntScan_spec ai ranges (rand (rangesSize ranges - 1)) hok (by omega)
    refine ⟨v, ?_, hin, hne, ?_⟩
    · unfold pruneIntDefault
      simp only [hk, hscan]
    · intro sz
      simp only [Tell.admits, IntRelType.holds, decide_eq_true_eq]
      exact fun h => hne h.symm

/-- Witness for C16 on the domain `{1,2} ∪ {5} ∪ {8,9}` with `a.ints()[i] = 5`
and `skip = 2`: the scan stops on the range `[5,5]`, steps to the next range
and selects `8`. -/
theorem pruneIntScan_selects_witness :
    pruneIntScan 5 [(1, 2), (5, 5), (8, 9)] 2 = some 8 ∧
    ∃ v, pruneIntScan 5 [(1, 2), (5, 5), (8, 9)] 2 = some v ∧
      inRanges [(1, 2), (5, 5), (8, 9)] v = true ∧ v ≠ 5 := by
  have hok : RangesOk [(1, 2), (5, 5), (8, 9)] := by
    simp [RangesOk]
  have hsz : rangesSize [(1, 2), (5, 5), (8, 9)] = 5 := by decide
  obtain ⟨v, h1, h2, h3, _⟩ :=
    (pruneIntScan_selects 5 [(1, 2), (5, 5), (8, 9)] hok (by rw [hsz]; decide)).1 2
      (by rw [hsz]; decide)
  exact ⟨by decide, v, h1, h2, h3⟩

/-! ## Properties of the modelled propagation loop -/

section EngineCore

variable {σ : Type}

end EngineCore

section Engine

variable {σ : Type} [DecidableEq σ]

end Engine

/-! ## Properties of `CpltSetTestSpace::assigned` -/

/-- The loop over the indices below `n` answers `true` exactly when every
visited element is assigned. -/
theorem assignedLoop_iff {α : Type} (asg : α → Bool) (v : List α) :
    ∀ n, n ≤ v.length →
      (assignedLoop asg v n = true ↔ ∀ j, j < n → ∀ a, v[j]? = some a → asg a = true) := by
  intro n
  induction n with
  | zero =>
    intro _
    simp [assignedLoop]
  | succ n ih =>
    intro hn
    have hlt : n < v.length := hn
    have hget : v[n]? = some v[n] := List.getElem?_eq_getElem hlt
    unfold assignedLoop
    rw [hget]
    simp only
    cases hasg : asg v[n] with
    | false =>
      simp only [Bool.not_false, if_true, Bool.false_eq_true, false_iff]
      intro hall
      have := hall n (Nat.lt_succ_self n) v[n] hget
      rw [hasg] at this
      exact Bool.false_ne_true this
    | true =>
      simp only [Bool.not_true, Bool.false_eq_true, if_false]
      rw [ih (Nat.le_of_lt hlt)]
      constructor
      · intro hall j hj a ha
        rcases Nat.lt_succ_iff_lt_or_eq.mp hj with hj | hj
        · exact hall j hj a ha
        · subst hj
          rw [hget] at ha
          cases ha
          exact hasg
      · intro hall j hj a ha
        exact hall j (Nat.lt_succ_of_lt hj) a ha

/-- The loop over all indices answers `true` exactly when every element of
the array is assigned. -/
theorem assignedLoop_all {α : Type} (asg : α → Bool) (v : List α) :
    assignedLoop asg v v.length = true ↔ ∀ a ∈ v, asg a = true := by
  rw [assignedLoop_iff asg v v.length (Nat.le_refl _)]
  constructor
  · intro hall a ha
    obtain ⟨j, hj, hja⟩ := List.getElem_of_mem ha
    exact hall j hj a (by rw [List.getElem?_eq_getElem hj, hja])
  · intro hall j _ a ha
    exact hall a (List.getElem?_mem ha)

/-- C15 (as amended): `assigned()` returns true exactly when every set
variable `x[i]` and every integer variable `y[i]` is assigned; the control
variable `b` does not enter the result. -/
theorem CpltSetTestSpace.assigned_iff {X Y B : Type} (ops : VarOps X Y B)
    (s : CpltSetTestSpace X Y B) :
    (CpltSetTestSpace.assigned ops s = true ↔
      (∀ v ∈ s.x, ops.xAssigned v = true) ∧ (∀ v ∈ s.y, ops.yAssigned v = true)) ∧
    (∀ b1 : B, CpltSetTestSpace.assigned ops { s with b := b1 } =
      CpltSetTestSpace.assigned ops s) := by
  refine ⟨?_, fun _ => rfl⟩
  unfold CpltSetTestSpace.assigned
  rw [← assignedLoop_all ops.xAssigned s.x, ← assignedLoop_all ops.yAssigned s.y]
  cases assignedLoop ops.xAssigned s.x s.x.length <;>
    cases assignedLoop ops.yAssigned s.y s.y.length <;> simp

/-- Witness for C15 (as amended): with the set variable and the integer
variable assigned, `assigned()` returns true, whatever the state of `b`. -/
theorem CpltSetTestSpace.assigned_iff_witness :
    CpltSetTestSpace.assigned flagVarOps
      { x := [true], y := [true], withInt := 1, b := false, reified := false } = true ∧
    CpltSetTestSpace.assigned flagVarOps
      { x := [true, false], y := [true], withInt := 1, b := true, reified := true } = false := by
  refine ⟨(CpltSetTestSpace.assigned_iff flagVarOps
      { x := [true], y := [true], withInt := 1, b := false, reified := false }).1.mpr
      ⟨by decide, by decide⟩, ?_⟩
  have h := (CpltSetTestSpace.assigned_iff flagVarOps
      { x := [true, false], y := [true], withInt := 1, b := true, reified := true }).1
  cases hv : CpltSetTestSpace.assigned flagVarOps
      { x := [true, false], y := [true], withInt := 1, b := true, reified := true } with
  | false => rfl
  | true =>
    have h2 := (h.mp hv).1 false (by decide)
    exact absurd h2 (by decide)

/-- Counterexample to C15: in a space whose set variable and integer
variable are assigned and whose control variable is not, `assigned()` returns
true although not all three kinds of variables are assigned. -/
theorem CpltSetTestSpace.assigned_ignores_b :
    CpltSetTestSpace.assigned flagVarOps
      { x := [true], y := [true], withInt := 1, b := false, reified := false } = true ∧
    flagVarOps.bAssigned false = false ∧
    ¬ (CpltSetTestSpace.assigned flagVarOps
        { x := [true], y := [true], withInt := 1, b := false, reified := false } = true ↔
      ((∀ v ∈ [true], flagVarOps.xAssigned v = true) ∧
       (∀ v ∈ [true], flagVarOps.yAssigned v = true) ∧
       flagVarOps.bAssigned false = true)) := by
  refine ⟨by decide, rfl, ?_⟩
  intro h
  have h2 := (h.mp (by decide)).2.2
  exact Bool.false_ne_true h2

end Test.CpltSet

/-! ## Properties of `cmb_hash` -/

/-- The wrapped sum of `cmb_hash` is the plain sum reduced once. -/
theorem cmb_hash_eq_xor (w seed h : Nat) :
    cmb_hash w seed h =
      seed ^^^ ((h + 0x9e3779b9 + (seed <<< 6) + (seed >>> 2)) % 2 ^ w) := by
  unfold cmb_hash
  have h1 : h + 0x9e3779b9 % 2 ^ w ≡ h + 0x9e3779b9 [MOD 2 ^ w] :=
    (Nat.mod_modEq _ _).add_left h
  have h2 : (h + 0x9e3779b9 % 2 ^ w) % 2 ^ w + (seed <<< 6) % 2 ^ w
      ≡ h + 0x9e3779b9 + (seed <<< 6) [MOD 2 ^ w] :=
    ((Nat.mod_modEq _ _).trans h1).add (Nat.mod_modEq _ _)
  have h3 : ((h + 0x9e3779b9 % 2 ^ w) % 2 ^ w + (seed <<< 6) % 2 ^ w) % 2 ^ w + (seed >>> 2)
      ≡ h + 0x9e3779b9 + (seed <<< 6) + (seed >>> 2) [MOD 2 ^ w] :=
    ((Nat.mod_modEq _ _).trans h2).add_right _
  have h4 : (((h + 0x9e3779b9 % 2 ^ w) % 2 ^ w + (seed <<< 6) % 2 ^ w) % 2 ^ w
      + (seed >>> 2)) % 2 ^ w
      = (h + 0x9e3779b9 + (seed <<< 6) + (seed >>> 2)) % 2 ^ w := h3
  simp only
  rw [h4]

/-- The new seed is again a `w`-bit value. -/
theorem cmb_hash_lt (w seed h : Nat) (hs : seed < 2 ^ w) : cmb_hash w seed h < 2 ^ w := by
  rw [cmb_hash_eq_xor]
  exact Nat.xor_lt_two_pow hs (Nat.mod_lt _ (Nat.two_pow_pos w))

/-- Two `w`-bit values combined into the same seed with the same result are
equal. -/
theorem cmb_hash_inj (w seed h1 h2 : Nat) (hh1 : h1 < 2 ^ w) (hh2 : h2 < 2 ^ w)
    (heq : cmb_hash w seed h1 = cmb_hash w seed h2) : h1 = h2 := by
  rw [cmb_hash_eq_xor, cmb_hash_eq_xor] at heq
  have hmod : h1 + 0x9e3779b9 + (seed <<< 6) + (seed >>> 2)
      ≡ h2 + 0x9e3779b9 + (seed <<< 6) + (seed >>> 2) [MOD 2 ^ w] :=
    Nat.xor_right_injective heq
  have hmod2 : h1 ≡ h2 [MOD 2 ^ w] :=
    Nat.ModEq.add_right_cancel' _
      (Nat.ModEq.add_right_cancel' _ (Nat.ModEq.add_right_cancel' _ hmod))
  exact hmod2.eq_of_lt_of_lt hh1 hh2

/-- C13: for every seed and every hash value `h`, `cmb_hash(seed,h)` replaces
`seed` by `seed XOR ((h + 0x9e3779b9 + (seed << 6) + (seed >> 2)) mod 2^w)`,
the XOR taking the whole wrapped sum as right operand and the shifts acting
on the old seed; the new seed of a `w`-bit seed has `w` bits; and for a
`std::size_t` of at least 32 bits combining `h = 0` into `seed = 0` gives
`0x9e3779b9`. -/
theorem cmb_hash_formula (w seed h : Nat) :
    cmb_hash w seed h =
      seed ^^^ ((h + 0x9e3779b9 + (seed <<< 6) + (seed >>> 2)) % 2 ^ w) ∧
    (seed < 2 ^ w → cmb_hash w seed h < 2 ^ w) ∧
    (32 ≤ w → cmb_hash w 0 0 = 0x9e3779b9) := by
  refine ⟨cmb_hash_eq_xor w seed h, cmb_hash_lt w seed h, ?_⟩
  intro hw
  rw [cmb_hash_eq_xor]
  have hpow : 2 ^ 32 ≤ 2 ^ w := Nat.pow_le_pow_right (by decide) hw
  have hlt : 0 + 0x9e3779b9 + (0 <<< 6) + (0 >>> 2) < 2 ^ w := by
    simp only [Nat.zero_shiftLeft, Nat.zero_shiftRight, Nat.zero_add, Nat.add_zero]
    exact Nat.lt_of_lt_of_le (by decide) hpow
  rw [Nat.mod_eq_of_lt hlt]
  simp

/-- Witness for C13: for 64-bit and for 32-bit `std::size_t`, combining `0`
into the seed `0` gives `0x9e3779b9`. -/
theorem cmb_hash_formula_witness :
    cmb_hash 64 0 0 = 0x9e3779b9 ∧ cmb_hash 32 0 0 = 0x9e3779b9 ∧
    cmb_hash 64 1 2 < 2 ^ 64 :=
  ⟨(cmb_hash_formula 64 0 0).2.2 (by decide), (cmb_hash_formula 32 0 0).2.2 (by decide),
   (cmb_hash_formula 64 1 2).2.1 (by decide)⟩

/-- Conversion of an `int` below zero to a `std::size_t` of at least 32
bits adds `2^w`. -/
theorem int_to_size_neg (w : Nat) (hw : 32 ≤ w) (h : Int) (hlo : -2147483648 ≤ h)
    (hneg : h < 0) : h % 2 ^ w = h + 2 ^ w := by
  have hpN : (2 : Nat) ^ 32 ≤ 2 ^ w := Nat.pow_le_pow_right (by decide) hw
  have hpZ : (4294967296 : Int) ≤ 2 ^ w := by exact_mod_cast hpN
  rw [← Int.add_emod_self]
  exact Int.emod_eq_of_lt (by omega) (by omega)

/-- Conversion of a non-negative `int` to a `std::size_t` of at least 32
bits keeps its value. -/
theorem int_to_size_nonneg (w : Nat) (hw : 32 ≤ w) (h : Int) (hlo : 0 ≤ h)
    (hhi : h < 2147483648) : h % 2 ^ w = h := by
  have hpN : (2 : Nat) ^ 32 ≤ 2 ^ w := Nat.pow_le_pow_right (by decide) hw
  have hpZ : (4294967296 : Int) ≤ 2 ^ w := by exact_mod_cast hpN
  exact Int.emod_eq_of_lt hlo (by omega)

/-- C18: for every fixed seed, two different `w`-bit values combined into it
give different new seeds; and for a `w`-bit seed the map from the combined
value to the new seed sends `w`-bit values to `w`-bit values and reaches every
one of them, so it is a bijection on `w`-bit values. -/
theorem cmb_hash_bijective (w seed : Nat) :
    (∀ h1 h2, h1 < 2 ^ w → h2 < 2 ^ w → h1 ≠ h2 →
      cmb_hash w seed h1 ≠ cmb_hash w seed h2) ∧
    (seed < 2 ^ w →
      (∀ h, h < 2 ^ w → cmb_hash w seed h < 2 ^ w) ∧
      ∀ t, t < 2 ^ w → ∃ h, h < 2 ^ w ∧ cmb_hash w seed h = t) := by
  refine ⟨fun h1 h2 hh1 hh2 hne heq => hne (cmb_hash_inj w seed h1 h2 hh1 hh2 heq), ?_⟩
  intro hs
  refine ⟨fun h _ => cmb_hash_lt w seed h hs, ?_⟩
  intro t ht
  have hinj : Function.Injective
      (fun h : Fin (2 ^ w) => (⟨cmb_hash w seed h.val, cmb_hash_lt w seed h.val hs⟩ :
        Fin (2 ^ w))) := by
    intro a b hab
    have hval : cmb_hash w seed a.val = cmb_hash w seed b.val := congrArg Fin.val hab
    exact Fin.ext (cmb_hash_inj w seed a.val b.val a.isLt b.isLt hval)
  obtain ⟨h, hh⟩ := (Finite.injective_iff_surjective.mp hinj) ⟨t, ht⟩
  exact ⟨h.val, h.isLt, congrArg Fin.val hh⟩

/-- Witness for C18: combining `1` and combining `2` into the 64-bit seed `5`
give different seeds, and the seed `7` is reached from `5`. -/
theorem cmb_hash_bijective_witness :
    cmb_hash 64 5 1 ≠ cmb_hash 64 5 2 ∧ ∃ h, h < 2 ^ 64 ∧ cmb_hash 64 5 h = 7 :=
  ⟨(cmb_hash_bijective 64 5).1 1 2 (by decide) (by decide) (by decide),
   ((cmb_hash_bijective 64 5).2 (by decide)).2 7 (by decide)⟩

/-- C19: each of the `int` and `unsigned int` overloads is the `std::size_t`
overload applied to the converted value.  For a `std::size_t` of at least 32
bits, the `int` overload and the
`unsigned int` overload applied to a non-negative `int` `h` give what the
`std::size_t` overload gives for the value `h`; for a negative `int` `h` the
`int` overload combines `h + 2^w`; and for 64 bits the `unsigned int` overload
applied to the same 32-bit pattern combines `2^32 + h`, a different value,
and the two overloads give different new seeds. -/
theorem cmb_hash_overloads (w seed : Nat) (hw : 32 ≤ w) :
    (∀ h : Int, cmb_hash_int w seed h = cmb_hash w seed (h % 2 ^ w).toNat) ∧
    (∀ u : Nat, cmb_hash_uint w seed u = cmb_hash w seed (u % 2 ^ w)) ∧
    (∀ h : Int, 0 ≤ h → h < 2147483648 →
      cmb_hash_int w seed h = cmb_hash w seed h.toNat ∧
      cmb_hash_uint w seed h.toNat = cmb_hash w seed h.toNat) ∧
    (∀ h : Int, -2147483648 ≤ h → h < 0 →
      cmb_hash_int w seed h = cmb_hash w seed (h + 2 ^ w).toNat) ∧
    (w = 64 → ∀ h : Int, -2147483648 ≤ h → h < 0 →
      cmb_hash_uint w seed (h + 2 ^ 32).toNat = cmb_hash w seed (2 ^ 32 + h).toNat ∧
      (h + 2 ^ w).toNat ≠ (2 ^ 32 + h).toNat ∧
      cmb_hash_int w seed h ≠ cmb_hash_uint w seed (h + 2 ^ 32).toNat) := by
  have hpN : (2 : Nat) ^ 32 ≤ 2 ^ w := Nat.pow_le_pow_right (by decide) hw
  refine ⟨fun _ => rfl, fun _ => rfl, ?_, ?_, ?_⟩
  · intro h hlo hhi
    refine ⟨?_, ?_⟩
    · unfold cmb_hash_int
      rw [int_to_size_nonneg w hw h hlo hhi]
    · unfold cmb_hash_uint
      rw [Nat.mod_eq_of_lt]
      have : h.toNat < 2 ^ 32 := by
        norm_num
        omega
      exact Nat.lt_of_lt_of_le this hpN
  · intro h hlo hneg
    unfold cmb_hash_int
    rw [int_to_size_neg w hw h hlo hneg]
  · intro hw64 h hlo hneg
    subst hw64
    have hint : cmb_hash_int 64 seed h = cmb_hash 64 seed (h + 2 ^ 64).toNat := by
      unfold cmb_hash_int
      rw [int_to_size_neg 64 hw h hlo hneg]
    have hu : (h + 2 ^ 32).toNat % 2 ^ 64 = (2 ^ 32 + h).toNat := by
      norm_num
      omega
    have huint : cmb_hash_uint 64 seed (h + 2 ^ 32).toNat
        = cmb_hash 64 seed (2 ^ 32 + h).toNat := by
      unfold cmb_hash_uint
      rw [hu]
    have hne : (h + 2 ^ 64).toNat ≠ (2 ^ 32 + h).toNat := by
      norm_num
      omega
    refine ⟨huint, hne, ?_⟩
    rw [hint, huint]
    intro heq
    apply hne
    apply cmb_hash_inj 64 seed _ _ _ _ heq
    · norm_num
      omega
    · norm_num
      omega

/-- Witness for C19 with a 64-bit `std::size_t`: the `int` `7` is combined as
`7` by both overloads, the `int` `-1` is combined as `2^64 - 1` by the `int`
overload and its 32-bit pattern as `2^32 - 1` by the `unsigned int` overload,
with different new seeds. -/
theorem cmb_hash_overloads_witness :
    cmb_hash_int 64 3 7 = cmb_hash 64 3 7 ∧
    cmb_hash_uint 64 3 7 = cmb_hash 64 3 7 ∧
    cmb_hash_int 64 3 (-1) = cmb_hash 64 3 18446744073709551615 ∧
    cmb_hash_uint 64 3 4294967295 = cmb_hash 64 3 4294967295 ∧
    cmb_hash_int 64 3 (-1) ≠ cmb_hash_uint 64 3 4294967295 := by
  have hw := cmb_hash_overloads 64 3 (by decide)
  have e1 : ((-1 : Int) + 2 ^ 64).toNat = 18446744073709551615 := by norm_num; omega
  have e2 : ((-1 : Int) + 2 ^ 32).toNat = 4294967295 := by norm_num; omega
  have e3 : ((2 : Int) ^ 32 + (-1)).toNat = 4294967295 := by norm_num; omega
  have h3 := hw.2.2.2.1 (-1) (by decide) (by decide)
  have h4 := hw.2.2.2.2 rfl (-1) (by decide) (by decide)
  rw [e1] at h3
  rw [e2, e3] at h4
  exact ⟨(hw.2.2.1 7 (by decide) (by decide)).1, (hw.2.2.1 7 (by decide) (by decide)).2,
    h3, h4.1, h4.2.2⟩

end Gecode
